import Mathlib

/-!
# handlebars: the signal dispatcher and its handler wrapper

A shallow embedding of `include/handlebars/dispatcher.hpp` and
`include/handlebars/handler.hpp`.

`dispatcher<SignalT, SlotArgTs...>` keeps two static members, `m_slot_map` and
`m_event_queue`.  They are the first two fields of `state`; the rest of the
program that slots act on is the field `world`.

* `S` is `SignalT`, `A` is the argument bundle `std::tuple<SlotArgTs...>`.
* A slot has no return value; it acts on the world `W` and may raise an error
  of type `E`.  A slot of this embedding does not call back into the
  dispatcher.
* A lambda with the capture `[&]` holds references, not values.  Where the
  storage referred to is dead by the time the slot is fired
  (`connect_bind_member`), what the firing does is not determined by the
  arguments of the connect call: it is a separate argument, `dangling`.
  `dispatcher::connect_bind` has no embedding: its body names `bound_args`,
  which is not declared there (the pack of that function is called `args`),
  and lacks a semicolon, so no call of it compiles.
* `std::list` iterators stay valid while other elements are erased.  A list
  node therefore carries an identity (`slot_node.id`, standing for the address
  of the node), and an iterator is that identity.  `state.next_node` is the
  identity the next allocated node receives.
* `state.calls` is a record of every slot invocation made so far, in order.
-/

set_option linter.unusedSectionVars false
set_option linter.unusedVariables false

namespace handlebars

/-- Modelled from the spec: `function.hpp` (the type-erased callable
`function<void(SlotArgTs...)>`) is not among the sources.  By section 4.2 a slot
can be invoked any number of times with the declared arguments and produces no
return value: here it maps the arguments and the world to the new world and
the error it raised, if any. -/
abbrev slot_type (A W E : Type) : Type := A → W → W × Option E

/-- One node of a `std::list<slot_type>`: its identity and the stored slot. -/
structure slot_node (A W E : Type) where
  id : Nat
  slot : slot_type A W E

/-- The `slot_list_type`, a `std::list<slot_type>`. -/
abbrev slot_list_type (A W E : Type) : Type := List (slot_node A W E)

/-- The `slot_id_type`, a signal and an iterator into the list of that signal. -/
abbrev slot_id_type (S : Type) : Type := S × Nat

/-- The `slot_map_type`, a `std::unordered_map<SignalT, slot_list_type>`:
`none` is a key that is absent. -/
abbrev slot_map_type (S A W E : Type) : Type := S → Option (slot_list_type A W E)

/-- The `event_type`, a signal and the stored arguments. -/
abbrev event_type (S A : Type) : Type := S × A

/-- The `event_queue_type`, a `std::deque<event_type>`, front first. -/
abbrev event_queue_type (S A : Type) : Type := List (event_type S A)

/-- The program state: the two static members of the dispatcher, the node
allocator, the world outside the dispatcher and the record of invocations. -/
structure state (S A W E : Type) where
  m_slot_map : slot_map_type S A W E
  m_event_queue : event_queue_type S A
  next_node : Nat
  world : W
  calls : List (slot_node A W E × A)

variable {S A W E T B : Type} [DecidableEq S]

/-- The state before first use: `m_slot_map = {}` and `m_event_queue = {}`. -/
def state.init (w : W) : state S A W E :=
  { m_slot_map := fun _ => none, m_event_queue := [], next_node := 0, world := w, calls := [] }

/-- The list stored for a signal, an absent key read as the empty list. -/
def chain_of (m : slot_map_type S A W E) (signal : S) : slot_list_type A W E :=
  (m signal).getD []

/-- The access `m[signal]` of `std::unordered_map`: the list stored for `signal`, and the
map, in which an absent key has been inserted with an empty list. -/
def slot_map_index (m : slot_map_type S A W E) (signal : S) :
    slot_list_type A W E × slot_map_type S A W E :=
  match m signal with
  | some chain => (chain, m)
  | none => ([], Function.update m signal (some []))

/-- The body shared by the four connect functions once the slot is built,
`m_slot_map[signal].emplace_back(slot); return (signal, --m_slot_map[signal].end())`:
the new node is appended and the id of the last node of the list is returned. -/
def emplace_back_slot (signal : S) (slot : slot_type A W E) (st : state S A W E) :
    slot_id_type S × state S A W E :=
  let (chain, m) := slot_map_index st.m_slot_map signal
  let node : slot_node A W E := { id := st.next_node, slot := slot }
  let chain1 := chain ++ [node]
  let st1 := { st with m_slot_map := Function.update m signal (some chain1),
                       next_node := st.next_node + 1 }
  ((signal, (chain1.getLastD node).id), st1)

/-- The function `dispatcher::connect(signal, slot)`. -/
def connect (signal : S) (slot : slot_type A W E) (st : state S A W E) :
    slot_id_type S × state S A W E :=
  emplace_back_slot signal slot st

/-- Modelled from the spec: `function.hpp` is not among the sources, so the
slot that `emplace_back(target, slot)` constructs from an instance and a
member callable follows section 4.1: invocation applies the member callable to
that instance with the arguments of the event. -/
def member_slot (target : T) (slot : T → A → W → W × Option E) : slot_type A W E :=
  fun args => slot target args

/-- The function `dispatcher::connect_member(signal, target, slot)`. -/
def connect_member (signal : S) (target : T) (slot : T → A → W → W × Option E)
    (st : state S A W E) : slot_id_type S × state S A W E :=
  emplace_back_slot signal (member_slot target slot) st

/-- The function `dispatcher::connect_bind_member(signal, target, slot, bound_args...)`.
Both branches of the `if constexpr` store a lambda with the capture `[&]` whose
body calls the member `slot` of `target` with `(bound_args..., args...)`.
`slot` is a parameter passed by value and the lambda holds a reference to it:
its storage ends when `connect_bind_member` returns (as does that of the
pointer `this`, which `handler::connect_bind` hands over as `target`).  Every
firing of the stored lambda reads dead storage, so what it does is not a
function of `target`, `slot` and `bound_args`: it is the argument `dangling`,
the one thing stored. -/
def connect_bind_member (signal : S) (_target : T) (_slot : T → B → A → W → W × Option E)
    (_bound_args : B) (dangling : slot_type A W E) (st : state S A W E) :
    slot_id_type S × state S A W E :=
  emplace_back_slot signal dangling st

/-- The function `dispatcher::push_event(signal, args...)`: `m_event_queue.push_back`. -/
def push_event (signal : S) (args : A) (st : state S A W E) : state S A W E :=
  { st with m_event_queue := st.m_event_queue ++ [(signal, args)] }

/-- The inner loop of `respond`, `for (auto& slot : chain) std::apply(slot, args)`:
every slot is recorded when it is invoked; an error raised by a slot ends the
loop and is returned. -/
def fire_chain (args : A) : slot_list_type A W E → state S A W E → state S A W E × Option E
  | [], st => (st, none)
  | node :: rest, st =>
    match node.slot args st.world with
    | (w, some e) => ({ st with world := w, calls := st.calls ++ [(node, args)] }, some e)
    | (w, none) => fire_chain args rest { st with world := w, calls := st.calls ++ [(node, args)] }

/-- The outer loop of `respond`, `for (auto& event : m_event_queue)`.  The
range is fixed when the loop starts, and the iterator of a deque is a pointer
to the element: after `pop_front` has removed the element it stands on, the
increment moves it to the element that followed.  So the loop walks the events
that were queued when it started, front to back (the first argument); each
pass fires the chain of the event, counts it, pops the front of the queue and
breaks when `progress == limit`.  `progress` never exceeds the number of queued
events, so the `size_t` counter does not wrap. -/
def respond_loop (limit : Nat) :
    event_queue_type S A → Nat → state S A W E → state S A W E × Option E
  | [], _, st => (st, none)
  | event :: rest, progress, st =>
    let (chain, m) := slot_map_index st.m_slot_map event.1
    match fire_chain event.2 chain { st with m_slot_map := m } with
    | (st1, some e) => (st1, some e)
    | (st1, none) =>
      let progress1 := progress + 1
      let st2 := { st1 with m_event_queue := st1.m_event_queue.tail }
      if progress1 = limit then (st2, none) else respond_loop limit rest progress1 st2

/-- The function `dispatcher::respond(limit)`: the state it leaves and either the boolean it
returns or the error that a slot raised. -/
def respond (limit : Nat) (st : state S A W E) : state S A W E × Except E Bool :=
  if st.m_event_queue.length = 0 then (st, .ok false)
  else
    match respond_loop limit st.m_event_queue 0 st with
    | (st1, some e) => (st1, .error e)
    | (st1, none) => (st1, .ok (decide (st1.m_event_queue.length > 0)))

/-- The function `dispatcher::disconnect(slot_id)`, `m_slot_map[signal].erase(it)`:
the node with the identity `it` leaves the list.  Erasing needs an iterator to
an element of that list; with any other iterator the behaviour is undefined,
which is `none`. -/
def disconnect (slot_id : slot_id_type S) (st : state S A W E) : Option (state S A W E) :=
  let (chain, m) := slot_map_index st.m_slot_map slot_id.1
  if chain.any (fun node => node.id == slot_id.2) then
    some { st with m_slot_map :=
      Function.update m slot_id.1 (some (chain.filter (fun node => node.id != slot_id.2))) }
  else none

/-- One pass of the loop of `purge_events`, `while (m_event_queue.size())
{ if (front.signal == signal) m_event_queue.pop(); }`: `none` when the loop
condition is false, else the state after the body.  (`pop` is the removal at
the front of a FIFO queue, `pop_front` of the deque.) -/
def purge_events_step (signal : S) (st : state S A W E) : Option (state S A W E) :=
  match st.m_event_queue with
  | [] => none
  | event :: rest =>
    if event.1 = signal then some { st with m_event_queue := rest } else some st

/-- The function `dispatcher::purge_events(signal)` run for at most `fuel` passes of its
loop: `some` of the final state when the loop has ended by then, `none` when it
is still running. -/
def purge_events (signal : S) : Nat → state S A W E → Option (state S A W E)
  | 0, _ => none
  | fuel + 1, st =>
    match purge_events_step signal st with
    | none => some st
    | some st1 => purge_events signal fuel st1

/-! ### What a run of `respond` amounts to -/

/-- The world after the slots of `chain` have run on `args`, first to last. -/
def run_chain (args : A) (chain : slot_list_type A W E) (w : W) : W :=
  chain.foldl (fun w1 node => (node.slot args w1).1) w

/-- The invocations `events` call for, in order: for each event in turn, every
slot of the chain of its signal, first to last, with the arguments of the
event. -/
def invocations (chains : S → slot_list_type A W E) (events : event_queue_type S A) :
    List (slot_node A W E × A) :=
  events.flatMap (fun event => (chains event.1).map (fun node => (node, event.2)))

/-- The world after the invocations that `events` call for. -/
def run_events (chains : S → slot_list_type A W E) (events : event_queue_type S A) (w : W) : W :=
  events.foldl (fun w1 event => run_chain event.2 (chains event.1) w1) w

/-- The slot map after `m[signal]` has been evaluated for the signal of every
event: signals without a list have received an empty one. -/
def index_all (m : slot_map_type S A W E) (events : event_queue_type S A) :
    slot_map_type S A W E :=
  events.foldl (fun m1 event => (slot_map_index m1 event.1).2) m

/-- No slot that `events` call for raises an error, whatever the world. -/
def never_fails (chains : S → slot_list_type A W E) (events : event_queue_type S A) : Prop :=
  ∀ event ∈ events, ∀ node ∈ chains event.1, ∀ w, (node.slot event.2 w).2 = none

/-- The number of passes the loop of `respond` makes over `n` queued events
when it starts with the counter at `progress`: it breaks after the pass that
brings the counter to `limit`. -/
def stop_count (limit progress n : Nat) : Nat :=
  if progress < limit ∧ limit ≤ progress + n then limit - progress else n

/-! ### The handler wrapper of `handler.hpp` -/

/-- An instance of `handler<DerivedT, SignalT, SlotArgTs...>`: `self` is the
derived object, `static_cast<DerivedT*>(this)`, and `m_slots` the vector of
recorded slot ids. -/
structure handler (T S : Type) where
  self : T
  m_slots : List (slot_id_type S)

/-- The function `handler::connect(signal, slot)`: the returned id (`m_slots.back()`), the
instance and the state. -/
def handler.connect (h : handler T S) (signal : S) (slot : T → A → W → W × Option E)
    (st : state S A W E) : slot_id_type S × handler T S × state S A W E :=
  let (slot_id, st1) := handlebars.connect_member signal h.self slot st
  let h1 : handler T S := { h with m_slots := h.m_slots ++ [slot_id] }
  (h1.m_slots.getLastD slot_id, h1, st1)

/-- The function `handler::connect_bind(signal, slot, bound_args...)`, which
passes `dangling` on to `connect_bind_member`. -/
def handler.connect_bind (h : handler T S) (signal : S) (slot : T → B → A → W → W × Option E)
    (bound_args : B) (dangling : slot_type A W E) (st : state S A W E) :
    slot_id_type S × handler T S × state S A W E :=
  let (slot_id, st1) :=
    handlebars.connect_bind_member signal h.self slot bound_args dangling st
  let h1 : handler T S := { h with m_slots := h.m_slots ++ [slot_id] }
  (h1.m_slots.getLastD slot_id, h1, st1)

/-- The function `handler::push_event(signal, args...)`, which forwards to the dispatcher. -/
def handler.push_event (_h : handler T S) (signal : S) (args : A) (st : state S A W E) :
    state S A W E :=
  handlebars.push_event signal args st

/-- The function `handler::purge_events(signal)`, which forwards to the dispatcher. -/
def handler.purge_events (_h : handler T S) (signal : S) (fuel : Nat) (st : state S A W E) :
    Option (state S A W E) :=
  handlebars.purge_events signal fuel st

/-- The destructor `handler::~handler()`: `for (auto& handle : m_slots) disconnect(handle)`. -/
def handler.destroy (h : handler T S) (st : state S A W E) : Option (state S A W E) :=
  h.m_slots.foldlM (fun st1 handle => handlebars.disconnect handle st1) st

/-! ### Reading a slot id -/

/-- The node a slot id points at, if it points at a node of the list of its
signal. -/
def slot_at (st : state S A W E) (slot_id : slot_id_type S) : Option (slot_node A W E) :=
  (chain_of st.m_slot_map slot_id.1).find? (fun node => node.id == slot_id.2)

/-- A slot id is live when it points at a node of the list of its signal. -/
def live (st : state S A W E) (slot_id : slot_id_type S) : Prop :=
  slot_id.2 ∈ (chain_of st.m_slot_map slot_id.1).map (fun node => node.id)

/-- The nodes of every list are distinct, and older than the next node. -/
def well_formed (st : state S A W E) : Prop :=
  ∀ signal, ((chain_of st.m_slot_map signal).map (fun node => node.id)).Nodup ∧
    ∀ node ∈ chain_of st.m_slot_map signal, node.id < st.next_node

/-- The events of `events` pushed in order. -/
def push_all (events : event_queue_type S A) (st : state S A W E) : state S A W E :=
  events.foldl (fun st1 event => push_event event.1 event.2 st1) st

/-- The calls `connect(signal, f1)`, ..., `connect(signal, fN)` in order. -/
def connect_all (signal : S) (slots : List (slot_type A W E)) (st : state S A W E) :
    state S A W E :=
  slots.foldl (fun st1 slot => (connect signal slot st1).2) st

/-- The signals of the examples. -/
inductive demo_signal where
  | X
  | Y
  deriving DecidableEq, Repr

/-- The state of the examples: signals `X` and `Y`, one number as argument, a
world that lists what the slots did, as pairs of a slot name and the argument. -/
abbrev demo_state : Type := state demo_signal Nat (List (Nat × Nat)) Unit

/-- A slot that writes its name and its argument to the world. -/
def demo_slot (name : Nat) : slot_type Nat (List (Nat × Nat)) Unit :=
  fun args w => (w ++ [(name, args)], none)

/-- Slots 1 and 2 connected to `X`, then `(X, 5)`, `(Y, 6)`, `(X, 7)` pushed. -/
def demo_queued : demo_state :=
  push_event .X 7 (push_event .Y 6 (push_event .X 5
    (connect .X (demo_slot 2) (connect .X (demo_slot 1) (state.init [])).2).2))

/-! ### Several handler instances registering slots -/

/-- One registration: `handler::connect` or `handler::connect_bind` called on
the handler instance number `i`, or `dispatcher::connect` called directly.  A
`connect_bind` comes with what the firing of the lambda it stores does
(`dangling`, see `connect_bind_member`). -/
inductive registration (S A W E T B : Type) where
  | by_connect (i : Nat) (signal : S) (slot : T → A → W → W × Option E)
  | by_connect_bind (i : Nat) (signal : S) (slot : T → B → A → W → W × Option E) (bound_args : B)
      (dangling : slot_type A W E)
  | direct (signal : S) (slot : slot_type A W E)

/-- The handler instance a registration was made through, if any. -/
def registration.owner : registration S A W E T B → Option Nat
  | .by_connect i _ _ => some i
  | .by_connect_bind i _ _ _ _ => some i
  | .direct _ _ => none

/-- The signal of a registration. -/
def registration.signal : registration S A W E T B → S
  | .by_connect _ signal _ => signal
  | .by_connect_bind _ signal _ _ _ => signal
  | .direct signal _ => signal

/-- The slot a registration stores, given the handler instances. -/
def registration.stored (op : registration S A W E T B) (hs : Nat → handler T S) :
    slot_type A W E :=
  match op with
  | .by_connect i _ slot => member_slot (hs i).self slot
  | .by_connect_bind _ _ _ _ dangling => dangling
  | .direct _ slot => slot

/-- The handler instances and the state after one registration. -/
def register (op : registration S A W E T B) (sys : (Nat → handler T S) × state S A W E) :
    (Nat → handler T S) × state S A W E :=
  match op with
  | .by_connect i signal slot =>
    let (_, h1, st1) := (sys.1 i).connect signal slot sys.2
    (Function.update sys.1 i h1, st1)
  | .by_connect_bind i signal slot bound_args dangling =>
    let (_, h1, st1) := (sys.1 i).connect_bind signal slot bound_args dangling sys.2
    (Function.update sys.1 i h1, st1)
  | .direct signal slot => (sys.1, (connect signal slot sys.2).2)

/-- The handler instances and the state after the registrations in order. -/
def register_all (ops : List (registration S A W E T B))
    (sys : (Nat → handler T S) × state S A W E) : (Nat → handler T S) × state S A W E :=
  ops.foldl (fun sys1 op => register op sys1) sys

/-- Handler instances that have recorded nothing yet. -/
def fresh_handlers (selves : Nat → T) : Nat → handler T S :=
  fun i => { self := selves i, m_slots := [] }

/-- The handler instances and the state built from the empty domain by the
registrations `ops`. -/
def built (selves : Nat → T) (w : W) (ops : List (registration S A W E T B)) :
    (Nat → handler T S) × state S A W E :=
  register_all ops (fresh_handlers selves, state.init w)

/-- What holds of the handler instance `i` after any registrations `sys`, next
to the registrations `sys2` made by everyone but `i`: the ids it recorded are
live, distinct and older than the next node, as are the nodes of every list;
the lists without the nodes it recorded hold the slots of `sys2`; the
instances are the same objects. -/
def handles_inv (i : Nat) (sys sys2 : (Nat → handler T S) × state S A W E) : Prop :=
  (∀ h ∈ (sys.1 i).m_slots, live sys.2 h) ∧
  (∀ h ∈ (sys.1 i).m_slots, h.2 < sys.2.next_node) ∧
  (sys.1 i).m_slots.Nodup ∧
  (∀ s, ∀ node ∈ chain_of sys.2.m_slot_map s, node.id < sys.2.next_node) ∧
  (∀ s, ((chain_of sys.2.m_slot_map s).filter
      (fun node => decide ((s, node.id) ∉ (sys.1 i).m_slots))).map (fun node => node.slot) =
    (chain_of sys2.2.m_slot_map s).map (fun node => node.slot)) ∧
  (∀ j, (sys.1 j).self = (sys2.1 j).self)

/-! ### Further examples and sequences of calls -/

/-- The slots of `chain`, run in order on `args` from the world `w`, all
return without raising: each one is asked at the world the ones before it
left. -/
def chain_succeeds (args : A) : slot_list_type A W E → W → Prop
  | [], _ => True
  | node :: rest, w =>
    (node.slot args w).2 = none ∧ chain_succeeds args rest (node.slot args w).1

/-- The slots that `events` call for, run in order from the world `w`, all
return without raising, each at the world it is reached in. -/
def events_succeed (chains : S → slot_list_type A W E) :
    event_queue_type S A → W → Prop
  | [], _ => True
  | event :: rest, w =>
    chain_succeeds event.2 (chains event.1) w ∧
    events_succeed chains rest (run_chain event.2 (chains event.1) w)

/-- A slot that writes its name and its argument to the world, and raises an
error when the world held `bound` entries or more when it was called: whether
it fails depends on what ran before. -/
def demo_guarded_slot (name bound : Nat) : slot_type Nat (List (Nat × Nat)) Unit :=
  fun args w => (w ++ [(name, args)], if w.length < bound then none else some ())

/-- Slot 1 and the guarded slot 9 (bound 5) connected to `X`; then `(X, 1)`,
`(X, 2)`, `(X, 3)` pushed.  The guarded slot returns for the first two events
and raises for the third. -/
def demo_guarded : demo_state :=
  push_event .X 3 (push_event .X 2 (push_event .X 1
    (connect .X (demo_guarded_slot 9 5) (connect .X (demo_slot 1) (state.init [])).2).2))

/-- A firing that stops the run at once and writes nothing. -/
def demo_crash : slot_type Nat (List (Nat × Nat)) Unit :=
  fun _ w => (w, some ())

/-- A member callable that writes its bound argument, then the argument of the
event. -/
def demo_member (_self : Unit) (bound_args args : Nat) (w : List (Nat × Nat)) :
    List (Nat × Nat) × Option Unit :=
  (w ++ [(bound_args, args)], none)

/-- The calls `respond(limit)` made `count` times in a row: the state after
them and what each call returned, first call first. -/
def respond_repeat (limit : Nat) : Nat → state S A W E → state S A W E × List (Except E Bool)
  | 0, st => (st, [])
  | count + 1, st =>
    let (st1, result) := respond limit st
    let (st2, results) := respond_repeat limit count st1
    (st2, result :: results)

/-- The state after `count` passes of the loop of `purge_events`, or after
fewer when the loop has ended before. -/
def purge_events_run (signal : S) : Nat → state S A W E → state S A W E
  | 0, st => st
  | count + 1, st =>
    match purge_events_step signal st with
    | none => st
    | some st1 => purge_events_run signal count st1

/-- Scenario C from the empty domain: `connect(signal, slot)`,
`push_event(signal, a1)`, `disconnect` of the returned id,
`push_event(signal, a2)`, `respond()`. -/
def scenario_C (signal : S) (slot : slot_type A W E) (a1 a2 : A) (w : W) :
    Option (state S A W E × Except E Bool) :=
  let (handle, st1) := connect signal slot (state.init w)
  let st2 := push_event signal a1 st1
  (disconnect handle st2).map (fun st3 => respond 0 (push_event signal a2 st3))

/-- Scenario B: `(X, 1)`, `(Y, 2)`, `(X, 3)` pushed in the empty domain. -/
def demo_unconnected : demo_state :=
  push_event .X 3 (push_event .Y 2 (push_event .X 1 (state.init [])))

/-- Two states that show `respond` the same: the same list for every signal
(an absent list read as empty), the same queue, world and record of
invocations. -/
def same_view (st st2 : state S A W E) : Prop :=
  chain_of st.m_slot_map = chain_of st2.m_slot_map ∧
  st.m_event_queue = st2.m_event_queue ∧
  st.world = st2.world ∧
  st.calls = st2.calls

/-! ### Lemmas on the slot map -/

theorem slot_map_index_fst (m : slot_map_type S A W E) (signal : S) :
    (slot_map_index m signal).1 = chain_of m signal := by
  unfold slot_map_index chain_of
  cases m signal <;> rfl

theorem chain_of_slot_map_index (m : slot_map_type S A W E) (signal : S) :
    chain_of (slot_map_index m signal).2 = chain_of m := by
  funext s
  unfold slot_map_index chain_of
  cases h : m signal with
  | some chain => rfl
  | none =>
    by_cases hs : s = signal
    · subst hs; simp [h]
    · simp [Function.update_noteq hs]

theorem chain_of_index_all (m : slot_map_type S A W E) (events : event_queue_type S A) :
    chain_of (index_all m events) = chain_of m := by
  induction events generalizing m with
  | nil => rfl
  | cons event rest ih =>
    show chain_of (index_all (slot_map_index m event.1).2 rest) = chain_of m
    rw [ih, chain_of_slot_map_index]

theorem index_all_cons (m : slot_map_type S A W E) (event : event_type S A)
    (rest : event_queue_type S A) :
    index_all m (event :: rest) = index_all (slot_map_index m event.1).2 rest := rfl

/-! ### Lemmas on the loops of `respond` -/

theorem fire_chain_ok (args : A) (chain : slot_list_type A W E) (st : state S A W E)
    (h : ∀ node ∈ chain, ∀ w, (node.slot args w).2 = none) :
    fire_chain args chain st =
      ({ st with world := run_chain args chain st.world,
                 calls := st.calls ++ chain.map (fun node => (node, args)) }, none) := by
  induction chain generalizing st with
  | nil => simp [fire_chain, run_chain]
  | cons node rest ih =>
    have h1 := h node (List.mem_cons_self _ _) st.world
    have h2 : ∀ n ∈ rest, ∀ w, (n.slot args w).2 = none :=
      fun n hn => h n (List.mem_cons_of_mem _ hn)
    rw [fire_chain]
    rcases hr : node.slot args st.world with ⟨w, err⟩
    rw [hr] at h1
    simp only at h1
    subst h1
    simp only
    rw [ih _ h2]
    simp [run_chain, hr]

theorem stop_count_zero (limit progress : Nat) : stop_count limit progress 0 = 0 := by
  unfold stop_count
  split_ifs <;> omega

theorem stop_count_succ (limit progress n : Nat) (h : progress + 1 ≠ limit) :
    stop_count limit progress (n + 1) = stop_count limit (progress + 1) n + 1 := by
  unfold stop_count
  split_ifs <;> omega

theorem stop_count_hit (limit progress n : Nat) (h : progress + 1 = limit) :
    stop_count limit progress (n + 1) = 1 := by
  unfold stop_count
  split_ifs <;> omega

theorem respond_loop_ok (limit : Nat) (events : event_queue_type S A) (progress : Nat)
    (st : state S A W E) (h : never_fails (chain_of st.m_slot_map) events) :
    respond_loop limit events progress st =
      ({ m_slot_map := index_all st.m_slot_map (events.take (stop_count limit progress events.length)),
         m_event_queue := st.m_event_queue.drop (stop_count limit progress events.length),
         next_node := st.next_node,
         world := run_events (chain_of st.m_slot_map)
           (events.take (stop_count limit progress events.length)) st.world,
         calls := st.calls ++ invocations (chain_of st.m_slot_map)
           (events.take (stop_count limit progress events.length)) }, none) := by
  induction events generalizing progress st with
  | nil => simp [respond_loop, stop_count_zero, index_all, run_events, invocations]
  | cons event rest ih =>
    have h1 : ∀ node ∈ chain_of st.m_slot_map event.1, ∀ w, (node.slot event.2 w).2 = none :=
      h event (List.mem_cons_self _ _)
    have h2 : never_fails (chain_of st.m_slot_map) rest :=
      fun e he => h e (List.mem_cons_of_mem _ he)
    rw [respond_loop]
    simp only [slot_map_index_fst]
    rw [fire_chain_ok _ _ _ h1]
    simp only
    by_cases hp : progress + 1 = limit
    · rw [if_pos hp, List.length_cons, stop_count_hit _ _ _ hp]
      simp [index_all, run_events, invocations]
    · rw [if_neg hp, List.length_cons, stop_count_succ _ _ _ hp]
      rw [ih]
      · simp [chain_of_slot_map_index, index_all_cons, run_events, invocations]
      · simpa [chain_of_slot_map_index] using h2

theorem stop_count_zero_limit (progress n : Nat) : stop_count 0 progress n = n := by
  unfold stop_count
  split_ifs <;> omega

theorem stop_count_le (limit progress n : Nat) : stop_count limit progress n ≤ n := by
  unfold stop_count
  split_ifs <;> omega

theorem respond_ok (limit : Nat) (st : state S A W E)
    (h : never_fails (chain_of st.m_slot_map) st.m_event_queue) :
    respond limit st =
      ({ m_slot_map := index_all st.m_slot_map
           (st.m_event_queue.take (stop_count limit 0 st.m_event_queue.length)),
         m_event_queue := st.m_event_queue.drop (stop_count limit 0 st.m_event_queue.length),
         next_node := st.next_node,
         world := run_events (chain_of st.m_slot_map)
           (st.m_event_queue.take (stop_count limit 0 st.m_event_queue.length)) st.world,
         calls := st.calls ++ invocations (chain_of st.m_slot_map)
           (st.m_event_queue.take (stop_count limit 0 st.m_event_queue.length)) },
       .ok (decide (stop_count limit 0 st.m_event_queue.length < st.m_event_queue.length))) := by
  unfold respond
  by_cases hq : st.m_event_queue.length = 0
  · rw [if_pos hq]
    simp [hq, stop_count_zero, index_all, run_events, invocations]
  · rw [if_neg hq, respond_loop_ok limit _ 0 st h]
    have hle := stop_count_le limit 0 st.m_event_queue.length
    simp only [List.length_drop]
    congr 2
    simp only [decide_eq_decide]
    omega

theorem respond_zero_ok (st : state S A W E)
    (h : never_fails (chain_of st.m_slot_map) st.m_event_queue) :
    respond 0 st =
      ({ m_slot_map := index_all st.m_slot_map st.m_event_queue,
         m_event_queue := [],
         next_node := st.next_node,
         world := run_events (chain_of st.m_slot_map) st.m_event_queue st.world,
         calls := st.calls ++ invocations (chain_of st.m_slot_map) st.m_event_queue },
       .ok false) := by
  rw [respond_ok 0 st h]
  simp [stop_count_zero_limit]

theorem stop_count_limit (limit n : Nat) (h0 : 0 < limit) (hn : limit ≤ n) :
    stop_count limit 0 n = limit := by
  unfold stop_count
  split_ifs <;> omega

theorem stop_count_beyond (limit n : Nat) (hn : n < limit) : stop_count limit 0 n = n := by
  unfold stop_count
  split_ifs <;> omega

theorem never_fails_drop (chains : S → slot_list_type A W E) (events : event_queue_type S A)
    (k : Nat) (h : never_fails chains events) : never_fails chains (events.drop k) :=
  fun event he => h event (List.mem_of_mem_drop he)

theorem never_fails_of_total (chains : S → slot_list_type A W E) (events : event_queue_type S A)
    (h : ∀ signal, ∀ node ∈ chains signal, ∀ args w, (node.slot args w).2 = none) :
    never_fails chains events :=
  fun event _ node hn w => h event.1 node hn event.2 w

theorem demo_queued_never_fails :
    never_fails (chain_of demo_queued.m_slot_map) demo_queued.m_event_queue := by
  intro event _ node hn w
  rcases event with ⟨signal, args⟩
  cases signal
  · have hX : chain_of demo_queued.m_slot_map demo_signal.X =
        [⟨0, demo_slot 1⟩, ⟨1, demo_slot 2⟩] := rfl
    rw [hX] at hn
    simp only [List.mem_cons, List.mem_singleton, List.not_mem_nil, or_false] at hn
    rcases hn with rfl | rfl <;> rfl
  · have hY : chain_of demo_queued.m_slot_map demo_signal.Y = [] := rfl
    rw [hY] at hn
    cases hn

/-! ### Lemmas on connecting and disconnecting -/

theorem emplace_back_slot_eq (signal : S) (slot : slot_type A W E) (st : state S A W E) :
    emplace_back_slot signal slot st =
      ((signal, st.next_node),
       { st with
         m_slot_map := Function.update st.m_slot_map signal
           (some (chain_of st.m_slot_map signal ++ [⟨st.next_node, slot⟩])),
         next_node := st.next_node + 1 }) := by
  unfold emplace_back_slot slot_map_index chain_of
  cases h : st.m_slot_map signal with
  | some chain => simp [List.getLastD_concat]
  | none => simp [List.getLastD_concat]

theorem chain_of_update_same (m : slot_map_type S A W E) (signal : S)
    (chain : slot_list_type A W E) :
    chain_of (Function.update m signal (some chain)) signal = chain := by
  simp [chain_of]

theorem chain_of_update_other (m : slot_map_type S A W E) (signal s : S)
    (chain : slot_list_type A W E) (h : s ≠ signal) :
    chain_of (Function.update m signal (some chain)) s = chain_of m s := by
  simp [chain_of, Function.update_noteq h]

theorem disconnect_eq (slot_id : slot_id_type S) (st : state S A W E) (h : live st slot_id) :
    disconnect slot_id st =
      some { st with
        m_slot_map :=
          Function.update st.m_slot_map slot_id.1
            (some ((chain_of st.m_slot_map slot_id.1).filter (fun node => node.id != slot_id.2))) } := by
  unfold live at h
  obtain ⟨node, hn, hid⟩ := List.mem_map.1 h
  unfold disconnect slot_map_index
  unfold chain_of at hn ⊢
  cases hm : st.m_slot_map slot_id.1 with
  | none => rw [hm] at hn; cases hn
  | some chain =>
    rw [hm] at hn
    have hany : chain.any (fun n => n.id == slot_id.2) = true :=
      List.any_eq_true.2 ⟨node, hn, by simp [hid]⟩
    simp [hany]

theorem filter_id_split (chain : slot_list_type A W E) (i : Nat)
    (hd : (chain.map (fun node => node.id)).Nodup) (hi : i ∈ chain.map (fun node => node.id)) :
    ∃ before node after, chain = before ++ node :: after ∧ node.id = i ∧
      chain.filter (fun n => n.id != i) = before ++ after := by
  induction chain with
  | nil => cases hi
  | cons n rest ih =>
    rw [List.map_cons, List.nodup_cons] at hd
    by_cases hn : n.id = i
    · refine ⟨[], n, rest, rfl, hn, ?_⟩
      have hrest : rest.filter (fun x => x.id != i) = rest := by
        rw [List.filter_eq_self]
        intro a ha
        have : a.id ≠ i := by
          intro hai
          apply hd.1
          rw [hn, ← hai]
          exact List.mem_map_of_mem _ ha
        simp [this]
      simp [List.filter_cons, hn, hrest]
    · have hi2 : i ∈ rest.map (fun node => node.id) := by
        rw [List.map_cons, List.mem_cons] at hi
        rcases hi with hi | hi
        · exact absurd hi.symm hn
        · exact hi
      obtain ⟨before, node, after, hc, hid, hf⟩ := ih hd.2 hi2
      refine ⟨n :: before, node, after, by rw [hc]; rfl, hid, ?_⟩
      simp [List.filter_cons, hn, hf]

theorem find_filter_other (chain : slot_list_type A W E) (i j : Nat) (h : j ≠ i) :
    (chain.filter (fun n => n.id != i)).find? (fun n => n.id == j) =
      chain.find? (fun n => n.id == j) := by
  rw [List.find?_filter]
  congr 1
  funext a
  by_cases ha : a.id = j
  · simp [ha, h]
  · simp [ha]

theorem find_filter_same (chain : slot_list_type A W E) (i : Nat) :
    (chain.filter (fun n => n.id != i)).find? (fun n => n.id == i) = none := by
  rw [List.find?_filter]
  simp

theorem connect_all_spec (signal : S) (slots : List (slot_type A W E)) (st : state S A W E) :
    ((chain_of (connect_all signal slots st).m_slot_map signal).map (fun node => node.slot) =
      (chain_of st.m_slot_map signal).map (fun node => node.slot) ++ slots) ∧
    (∀ s, s ≠ signal →
      chain_of (connect_all signal slots st).m_slot_map s = chain_of st.m_slot_map s) ∧
    (connect_all signal slots st).m_event_queue = st.m_event_queue ∧
    (connect_all signal slots st).world = st.world ∧
    (connect_all signal slots st).calls = st.calls := by
  induction slots generalizing st with
  | nil => simp [connect_all]
  | cons f rest ih =>
    have hstep : connect_all signal (f :: rest) st = connect_all signal rest (connect signal f st).2 :=
      rfl
    rw [hstep]
    obtain ⟨h1, h2, h3, h4, h5⟩ := ih (connect signal f st).2
    unfold connect at h1 h2 h3 h4 h5 ⊢
    rw [emplace_back_slot_eq] at h1 h2 h3 h4 h5 ⊢
    refine ⟨?_, ?_, h3, h4, h5⟩
    · rw [h1]
      simp [chain_of_update_same]
    · intro s hs
      rw [h2 s hs]
      exact chain_of_update_other _ _ _ _ hs

theorem push_all_spec (events : event_queue_type S A) (st : state S A W E) :
    push_all events st = { st with m_event_queue := st.m_event_queue ++ events } := by
  induction events generalizing st with
  | nil => simp [push_all]
  | cons event rest ih =>
    have hstep : push_all (event :: rest) st = push_all rest (push_event event.1 event.2 st) := rfl
    rw [hstep, ih]
    simp [push_event]

theorem invocations_slots (chains : S → slot_list_type A W E) (events : event_queue_type S A) :
    (invocations chains events).map (fun c => (c.1.slot, c.2)) =
      events.flatMap (fun event => ((chains event.1).map (fun node => node.slot)).map
        (fun f => (f, event.2))) := by
  induction events with
  | nil => rfl
  | cons event rest ih =>
    unfold invocations at ih ⊢
    rw [List.flatMap_cons, List.flatMap_cons, List.map_append, ih]
    simp

/-! ### Lemmas on the destructor of a handler -/

theorem chain_of_disconnected (slot_id : slot_id_type S) (st : state S A W E) (s : S) :
    chain_of (Function.update st.m_slot_map slot_id.1
        (some ((chain_of st.m_slot_map slot_id.1).filter (fun node => node.id != slot_id.2)))) s =
      (chain_of st.m_slot_map s).filter (fun node => decide ((s, node.id) ≠ slot_id)) := by
  by_cases hs : s = slot_id.1
  · subst hs
    rw [chain_of_update_same]
    apply List.filter_congr
    intro node _
    by_cases hn : node.id = slot_id.2
    · simp [hn]
    · have : (slot_id.1, node.id) ≠ slot_id := fun h => hn (congrArg Prod.snd h)
      simp [hn, this]
  · rw [chain_of_update_other _ _ _ _ hs]
    symm
    rw [List.filter_eq_self]
    intro node _
    have : (s, node.id) ≠ slot_id := fun h => hs (congrArg Prod.fst h)
    simp [this]

theorem live_filter (st : state S A W E) (slot_id : slot_id_type S) (p : S → Nat → Bool)
    (m : slot_map_type S A W E)
    (hm : ∀ s, chain_of m s = (chain_of st.m_slot_map s).filter (fun node => p s node.id))
    (hp : p slot_id.1 slot_id.2 = true) (hl : live st slot_id) :
    live { st with m_slot_map := m } slot_id := by
  unfold live at hl ⊢
  obtain ⟨node, hn, hid⟩ := List.mem_map.1 hl
  apply List.mem_map.2
  refine ⟨node, ?_, hid⟩
  show node ∈ chain_of m slot_id.1
  rw [hm, List.mem_filter]
  exact ⟨hn, by rw [hid]; exact hp⟩

theorem destroy_spec (handles : List (slot_id_type S)) (st : state S A W E)
    (hd : handles.Nodup) (hl : ∀ h ∈ handles, live st h) :
    ∃ st1, handles.foldlM (fun st2 handle => disconnect handle st2) st = some st1 ∧
      (∀ s, chain_of st1.m_slot_map s =
        (chain_of st.m_slot_map s).filter (fun node => decide ((s, node.id) ∉ handles))) ∧
      st1.m_event_queue = st.m_event_queue ∧ st1.world = st.world ∧
      st1.calls = st.calls ∧ st1.next_node = st.next_node := by
  induction handles generalizing st with
  | nil => exact ⟨st, rfl, by simp, rfl, rfl, rfl, rfl⟩
  | cons h rest ih =>
    rw [List.nodup_cons] at hd
    have hlive : ∀ h2 ∈ rest,
        live { st with
          m_slot_map :=
            Function.update st.m_slot_map h.1
              (some ((chain_of st.m_slot_map h.1).filter (fun node => node.id != h.2))) } h2 := by
      intro h2 h2mem
      apply live_filter st h2 (fun s i => decide ((s, i) ≠ h)) _ (chain_of_disconnected h st)
      · have : h2 ≠ h := fun e => hd.1 (e ▸ h2mem)
        simpa using this
      · exact hl h2 (List.mem_cons_of_mem _ h2mem)
    obtain ⟨st1, h1, hc, hq, hw, hcalls, hnext⟩ := ih _ hd.2 hlive
    refine ⟨st1, ?_, ?_, hq, hw, hcalls, hnext⟩
    · rw [List.foldlM_cons, disconnect_eq h st (hl h (List.mem_cons_self _ _))]
      exact h1
    · intro s
      rw [hc s]
      show List.filter _ (chain_of (Function.update st.m_slot_map h.1 _) s) = _
      rw [chain_of_disconnected, List.filter_filter]
      apply List.filter_congr
      intro node _
      by_cases e1 : (s, node.id) = h
      · simp [e1]
      · by_cases e2 : (s, node.id) ∈ rest
        · simp [e1, e2]
        · simp [e1, e2]

/-! ### Lemmas on registrations -/

theorem register_state (op : registration S A W E T B)
    (sys : (Nat → handler T S) × state S A W E) :
    (register op sys).2 =
      { sys.2 with
        m_slot_map :=
          Function.update sys.2.m_slot_map op.signal
            (some (chain_of sys.2.m_slot_map op.signal ++ [⟨sys.2.next_node, op.stored sys.1⟩])),
        next_node := sys.2.next_node + 1 } := by
  cases op <;>
    simp [register, handler.connect, handler.connect_bind, connect_member, connect_bind_member,
      connect, emplace_back_slot_eq, registration.signal, registration.stored]

theorem register_owner (op : registration S A W E T B)
    (sys : (Nat → handler T S) × state S A W E) (i : Nat) (h : op.owner = some i) :
    ((register op sys).1 i).m_slots = (sys.1 i).m_slots ++ [(op.signal, sys.2.next_node)] := by
  cases op <;>
    simp [registration.owner] at h <;>
    subst h <;>
    simp [register, handler.connect, handler.connect_bind, connect_member, connect_bind_member,
      emplace_back_slot_eq, registration.signal, List.getLastD_concat]

theorem register_other (op : registration S A W E T B)
    (sys : (Nat → handler T S) × state S A W E) (i : Nat) (h : op.owner ≠ some i) :
    (register op sys).1 i = sys.1 i := by
  cases op with
  | by_connect j signal slot =>
    have hj : i ≠ j := fun e => h (by simp [registration.owner, e])
    simp [register, handler.connect, Function.update_noteq hj]
  | by_connect_bind j signal slot b dangling =>
    have hj : i ≠ j := fun e => h (by simp [registration.owner, e])
    simp [register, handler.connect_bind, Function.update_noteq hj]
  | direct signal slot => rfl

theorem register_self (op : registration S A W E T B)
    (sys : (Nat → handler T S) × state S A W E) (j : Nat) :
    ((register op sys).1 j).self = (sys.1 j).self := by
  cases op with
  | by_connect k signal slot =>
    by_cases hk : j = k
    · subst hk; simp [register, handler.connect]
    · simp [register, handler.connect, Function.update_noteq hk]
  | by_connect_bind k signal slot b dangling =>
    by_cases hk : j = k
    · subst hk; simp [register, handler.connect_bind]
    · simp [register, handler.connect_bind, Function.update_noteq hk]
  | direct signal slot => rfl

theorem stored_congr (op : registration S A W E T B) (hs hs2 : Nat → handler T S)
    (h : ∀ j, (hs j).self = (hs2 j).self) : op.stored hs = op.stored hs2 := by
  cases op <;> simp [registration.stored, h]

theorem chain_of_registered (op : registration S A W E T B)
    (sys : (Nat → handler T S) × state S A W E) (s : S) :
    chain_of (register op sys).2.m_slot_map s =
      if s = op.signal then chain_of sys.2.m_slot_map s ++ [⟨sys.2.next_node, op.stored sys.1⟩]
      else chain_of sys.2.m_slot_map s := by
  rw [register_state]
  by_cases hs : s = op.signal
  · rw [if_pos hs, hs]
    exact chain_of_update_same _ _ _
  · rw [if_neg hs]
    exact chain_of_update_other _ _ _ _ hs

theorem next_registered (op : registration S A W E T B)
    (sys : (Nat → handler T S) × state S A W E) :
    (register op sys).2.next_node = sys.2.next_node + 1 := by
  rw [register_state]

theorem live_registered (op : registration S A W E T B)
    (sys : (Nat → handler T S) × state S A W E) (h : slot_id_type S) (hl : live sys.2 h) :
    live (register op sys).2 h := by
  unfold live at hl ⊢
  rw [chain_of_registered]
  split_ifs
  · rw [List.map_append]
    exact List.mem_append_left _ hl
  · exact hl

theorem ids_registered (op : registration S A W E T B)
    (sys : (Nat → handler T S) × state S A W E)
    (hids : ∀ s, ∀ node ∈ chain_of sys.2.m_slot_map s, node.id < sys.2.next_node) :
    ∀ s, ∀ node ∈ chain_of (register op sys).2.m_slot_map s,
      node.id < (register op sys).2.next_node := by
  intro s node hn
  rw [next_registered]
  rw [chain_of_registered] at hn
  split_ifs at hn
  · rcases List.mem_append.1 hn with hn | hn
    · exact Nat.lt_succ_of_lt (hids s node hn)
    · rw [List.mem_singleton] at hn
      rw [hn]
      exact Nat.lt_succ_self _
  · exact Nat.lt_succ_of_lt (hids s node hn)

theorem handles_inv_step (i : Nat) (op : registration S A W E T B)
    (sys sys2 : (Nat → handler T S) × state S A W E) (h : handles_inv i sys sys2) :
    handles_inv i (register op sys) (if op.owner = some i then sys2 else register op sys2) := by
  obtain ⟨hlive, hlt, hnd, hids, hslots, hself⟩ := h
  by_cases ho : op.owner = some i
  · rw [if_pos ho]
    have hnew : ∀ s, ∀ node ∈ chain_of sys.2.m_slot_map s,
        decide ((s, node.id) ∉ (sys.1 i).m_slots ++ [(op.signal, sys.2.next_node)]) =
          decide ((s, node.id) ∉ (sys.1 i).m_slots) := by
      intro s node hn
      have hne : (s, node.id) ≠ (op.signal, sys.2.next_node) := by
        intro e
        have hlt2 := hids s node hn
        have e2 : node.id = sys.2.next_node := congrArg Prod.snd e
        rw [e2] at hlt2
        exact Nat.lt_irrefl _ hlt2
      simp [hne]
    refine ⟨?_, ?_, ?_, ids_registered op sys hids, ?_, ?_⟩
    · intro h hm
      rw [register_owner _ _ _ ho] at hm
      rcases List.mem_append.1 hm with hm | hm
      · exact live_registered op sys h (hlive h hm)
      · rw [List.mem_singleton] at hm
        subst hm
        unfold live
        rw [chain_of_registered]
        simp
    · intro h hm
      rw [register_owner _ _ _ ho] at hm
      rw [next_registered]
      rcases List.mem_append.1 hm with hm | hm
      · exact Nat.lt_succ_of_lt (hlt h hm)
      · rw [List.mem_singleton] at hm
        subst hm
        exact Nat.lt_succ_self _
    · rw [register_owner _ _ _ ho]
      rw [List.nodup_append]
      refine ⟨hnd, List.nodup_singleton _, ?_⟩
      intro x hx hx2
      rw [List.mem_singleton] at hx2
      subst hx2
      exact Nat.lt_irrefl _ (hlt _ hx)
    · intro s
      rw [register_owner _ _ _ ho, chain_of_registered]
      by_cases hs : s = op.signal
      · rw [if_pos hs, List.filter_append, List.filter_congr (hnew s)]
        have hout : List.filter
            (fun node : slot_node A W E =>
              decide ((s, node.id) ∉ (sys.1 i).m_slots ++ [(op.signal, sys.2.next_node)]))
            [⟨sys.2.next_node, op.stored sys.1⟩] = [] := by
          simp [hs]
        rw [hout, List.append_nil]
        exact hslots s
      · rw [if_neg hs, List.filter_congr (hnew s)]
        exact hslots s
    · intro j
      rw [register_self]
      exact hself j
  · rw [if_neg ho]
    refine ⟨?_, ?_, ?_, ids_registered op sys hids, ?_, ?_⟩
    · intro h hm
      rw [register_other _ _ _ ho] at hm
      exact live_registered op sys h (hlive h hm)
    · intro h hm
      rw [register_other _ _ _ ho] at hm
      rw [next_registered]
      exact Nat.lt_succ_of_lt (hlt h hm)
    · rw [register_other _ _ _ ho]
      exact hnd
    · intro s
      rw [register_other _ _ _ ho, chain_of_registered, chain_of_registered,
        stored_congr op sys2.1 sys.1 (fun j => (hself j).symm)]
      by_cases hs : s = op.signal
      · rw [if_pos hs, if_pos hs, List.filter_append, List.map_append, List.map_append, hslots s]
        have hin : List.filter
            (fun node : slot_node A W E => decide ((s, node.id) ∉ (sys.1 i).m_slots))
            [⟨sys.2.next_node, op.stored sys.1⟩] = [⟨sys.2.next_node, op.stored sys.1⟩] := by
          rw [List.filter_eq_self]
          intro node hn
          rw [List.mem_singleton] at hn
          subst hn
          have : (s, sys.2.next_node) ∉ (sys.1 i).m_slots :=
            fun hm => Nat.lt_irrefl _ (hlt _ hm)
          simpa using this
        rw [hin]
        rfl
      · rw [if_neg hs, if_neg hs]
        exact hslots s
    · intro j
      rw [register_self, register_self]
      exact hself j

theorem handles_inv_all (i : Nat) (ops : List (registration S A W E T B))
    (sys sys2 : (Nat → handler T S) × state S A W E) (h : handles_inv i sys sys2) :
    handles_inv i (register_all ops sys)
      (register_all (ops.filter (fun op => decide (op.owner ≠ some i))) sys2) := by
  induction ops generalizing sys sys2 with
  | nil => exact h
  | cons op rest ih =>
    have hstep := handles_inv_step i op sys sys2 h
    by_cases ho : op.owner = some i
    · rw [if_pos ho] at hstep
      have hf : (op :: rest).filter (fun op => decide (op.owner ≠ some i)) =
          rest.filter (fun op => decide (op.owner ≠ some i)) := by
        simp [List.filter_cons, ho]
      rw [hf]
      exact ih _ _ hstep
    · rw [if_neg ho] at hstep
      have hf : (op :: rest).filter (fun op => decide (op.owner ≠ some i)) =
          op :: rest.filter (fun op => decide (op.owner ≠ some i)) := by
        simp [List.filter_cons, ho]
      rw [hf]
      exact ih _ _ hstep

theorem handles_inv_init (i : Nat) (selves : Nat → T) (w : W) :
    handles_inv i ((fresh_handlers selves, state.init w) : (Nat → handler T S) × state S A W E)
      (fresh_handlers selves, state.init w) := by
  refine ⟨?_, ?_, List.nodup_nil, ?_, ?_, fun _ => rfl⟩
  · intro h hm; cases hm
  · intro h hm; cases hm
  · intro s node hn; cases hn
  · intro s; rfl

/-! ### Lemmas on the loop of `purge_events` -/

theorem purge_events_stuck (signal : S) (st : state S A W E) (event : event_type S A)
    (rest : event_queue_type S A) (hq : st.m_event_queue = event :: rest)
    (hne : event.1 ≠ signal) (fuel : Nat) : purge_events signal fuel st = none := by
  induction fuel with
  | zero => rfl
  | succ n ih =>
    unfold purge_events purge_events_step
    simp only [hq, if_neg hne]
    exact ih

theorem purge_events_all_match (signal : S) (queue : event_queue_type S A)
    (st : state S A W E) (hq : st.m_event_queue = queue)
    (hall : ∀ event ∈ queue, event.1 = signal) :
    purge_events signal (queue.length + 1) st = some { st with m_event_queue := [] } := by
  induction queue generalizing st with
  | nil =>
    unfold purge_events purge_events_step
    simp only [hq]
    rw [← hq]
  | cons event rest ih =>
    have he : event.1 = signal := hall event (List.mem_cons_self _ _)
    rw [List.length_cons, purge_events]
    unfold purge_events_step
    simp only [hq, if_pos he]
    exact ih _ rfl (fun e hmem => hall e (List.mem_cons_of_mem _ hmem))

/-! ### Well-formed states -/

theorem well_formed_init (w : W) : well_formed (state.init w : state S A W E) := by
  intro signal
  exact ⟨List.nodup_nil, fun node hn => by cases hn⟩

theorem well_formed_emplace_back (signal : S) (slot : slot_type A W E) (st : state S A W E)
    (h : well_formed st) : well_formed (emplace_back_slot signal slot st).2 := by
  rw [emplace_back_slot_eq]
  intro s
  by_cases hs : s = signal
  · subst hs
    simp only [chain_of_update_same]
    obtain ⟨hnd, hlt⟩ := h s
    refine ⟨?_, ?_⟩
    · rw [List.map_append, List.nodup_append]
      refine ⟨hnd, List.nodup_singleton _, ?_⟩
      intro x hx hx2
      rw [List.map_singleton, List.mem_singleton] at hx2
      obtain ⟨node, hn, hid⟩ := List.mem_map.1 hx
      have := hlt node hn
      rw [hid, hx2] at this
      exact Nat.lt_irrefl _ this
    · intro node hn
      rcases List.mem_append.1 hn with hn | hn
      · exact Nat.lt_succ_of_lt (hlt node hn)
      · rw [List.mem_singleton] at hn
        rw [hn]
        exact Nat.lt_succ_self _
  · simp only [chain_of_update_other _ _ _ _ hs]
    obtain ⟨hnd, hlt⟩ := h s
    exact ⟨hnd, fun node hn => Nat.lt_succ_of_lt (hlt node hn)⟩

theorem live_of_disconnect (slot_id : slot_id_type S) (st st1 : state S A W E)
    (h : disconnect slot_id st = some st1) : live st slot_id := by
  unfold disconnect slot_map_index at h
  unfold live chain_of
  cases hm : st.m_slot_map slot_id.1 with
  | none => simp [hm] at h
  | some chain =>
    simp only [hm] at h
    by_cases hany : chain.any (fun node => node.id == slot_id.2) = true
    · obtain ⟨node, hn, hid⟩ := List.any_eq_true.1 hany
      exact List.mem_map.2 ⟨node, hn, by simpa using hid⟩
    · simp [hany] at h

theorem well_formed_disconnect (slot_id : slot_id_type S) (st st1 : state S A W E)
    (h : well_formed st) (hd : disconnect slot_id st = some st1) : well_formed st1 := by
  rw [disconnect_eq slot_id st (live_of_disconnect slot_id st st1 hd)] at hd
  cases hd
  intro s
  simp only [chain_of_disconnected]
  obtain ⟨hnd, hlt⟩ := h s
  refine ⟨?_, fun node hn => hlt node (List.mem_of_mem_filter hn)⟩
  exact List.Nodup.sublist (List.Sublist.map _ (List.filter_sublist _)) hnd

theorem well_formed_push_event (signal : S) (args : A) (st : state S A W E)
    (h : well_formed st) : well_formed (push_event signal args st) := h

/-! ### Lemmas on a slot that fails during `respond` -/

theorem fire_chain_succeeds (args : A) (chain : slot_list_type A W E) (st : state S A W E)
    (h : chain_succeeds args chain st.world) :
    fire_chain args chain st =
      ({ st with world := run_chain args chain st.world,
                 calls := st.calls ++ chain.map (fun node => (node, args)) }, none) := by
  induction chain generalizing st with
  | nil => simp [fire_chain, run_chain]
  | cons node rest ih =>
    obtain ⟨h1, h2⟩ := h
    rw [fire_chain]
    rcases hr : node.slot args st.world with ⟨w, err⟩
    rw [hr] at h1 h2
    simp only at h1 h2
    subst h1
    simp only
    rw [ih _ h2]
    simp [run_chain, hr]

theorem fire_chain_fails (args : A) (before after : slot_list_type A W E)
    (node : slot_node A W E) (st : state S A W E) (e : E)
    (hb : chain_succeeds args before st.world)
    (hf : (node.slot args (run_chain args before st.world)).2 = some e) :
    fire_chain args (before ++ node :: after) st =
      ({ st with
         world := (node.slot args (run_chain args before st.world)).1,
         calls := st.calls ++ (before ++ [node]).map (fun n => (n, args)) }, some e) := by
  induction before generalizing st with
  | nil =>
    simp only [List.nil_append, run_chain, List.foldl_nil] at hf ⊢
    rw [fire_chain]
    rcases hr : node.slot args st.world with ⟨w, err⟩
    rw [hr] at hf
    simp only at hf
    subst hf
    simp
  | cons n rest ih =>
    obtain ⟨h1, h2⟩ := hb
    rw [List.cons_append, fire_chain]
    rcases hr : n.slot args st.world with ⟨w, err⟩
    rw [hr] at h1 h2
    simp only at h1 h2
    subst h1
    simp only
    have hf2 : (node.slot args (run_chain args rest w)).2 = some e := by
      simpa [run_chain, hr] using hf
    rw [ih _ h2 hf2]
    simp [run_chain, hr]

theorem chain_split (args : A) (chain : slot_list_type A W E) (w : W) :
    chain_succeeds args chain w ∨
    ∃ before node after e, chain = before ++ node :: after ∧
      chain_succeeds args before w ∧
      (node.slot args (run_chain args before w)).2 = some e := by
  induction chain generalizing w with
  | nil => exact Or.inl trivial
  | cons n rest ih =>
    cases hn : (n.slot args w).2 with
    | some e => exact Or.inr ⟨[], n, rest, e, rfl, trivial, by simpa [run_chain] using hn⟩
    | none =>
      rcases ih (n.slot args w).1 with h | ⟨before, node, after, e, hc, hb, hf⟩
      · exact Or.inl ⟨hn, h⟩
      · exact Or.inr ⟨n :: before, node, after, e, by rw [hc]; rfl, ⟨hn, hb⟩,
          by simpa [run_chain] using hf⟩

theorem index_all_concat (m : slot_map_type S A W E) (events : event_queue_type S A)
    (event : event_type S A) :
    index_all m (events ++ [event]) = (slot_map_index (index_all m events) event.1).2 := by
  simp [index_all, List.foldl_append]

theorem respond_loop_fails (limit : Nat) (first later : event_queue_type S A)
    (event : event_type S A) (before after : slot_list_type A W E) (node : slot_node A W E)
    (e : E) (progress : Nat) (st : state S A W E)
    (hlim : limit ≤ progress ∨ progress + first.length < limit)
    (hfirst : events_succeed (chain_of st.m_slot_map) first st.world)
    (hchain : chain_of st.m_slot_map event.1 = before ++ node :: after)
    (hb : chain_succeeds event.2 before (run_events (chain_of st.m_slot_map) first st.world))
    (hf : (node.slot event.2 (run_chain event.2 before
      (run_events (chain_of st.m_slot_map) first st.world))).2 = some e) :
    respond_loop limit (first ++ event :: later) progress st =
      ({ m_slot_map := index_all st.m_slot_map (first ++ [event]),
         m_event_queue := st.m_event_queue.drop first.length,
         next_node := st.next_node,
         world := (node.slot event.2 (run_chain event.2 before
           (run_events (chain_of st.m_slot_map) first st.world))).1,
         calls := st.calls ++ invocations (chain_of st.m_slot_map) first ++
           (before ++ [node]).map (fun n => (n, event.2)) }, some e) := by
  induction first generalizing progress st with
  | nil =>
    simp only [List.nil_append, run_events, List.foldl_nil] at hf hb ⊢
    rw [respond_loop]
    simp only [slot_map_index_fst, hchain]
    rw [fire_chain_fails event.2 before after node
      { st with m_slot_map := (slot_map_index st.m_slot_map event.1).2 } e hb hf]
    simp [index_all, invocations]
  | cons x rest ih =>
    obtain ⟨h1, h2⟩ := hfirst
    have hp : progress + 1 ≠ limit := by
      rw [List.length_cons] at hlim
      omega
    rw [List.cons_append, respond_loop]
    simp only [slot_map_index_fst]
    rw [fire_chain_succeeds x.2 (chain_of st.m_slot_map x.1)
      { st with m_slot_map := (slot_map_index st.m_slot_map x.1).2 } h1]
    simp only
    rw [if_neg hp]
    rw [ih]
    · simp [chain_of_slot_map_index, index_all_cons, run_events, invocations]
    · rw [List.length_cons] at hlim
      omega
    · simpa [chain_of_slot_map_index] using h2
    · simpa [chain_of_slot_map_index] using hchain
    · simpa [chain_of_slot_map_index, run_events] using hb
    · simpa [chain_of_slot_map_index, run_events] using hf

theorem respond_fails (limit : Nat) (first later : event_queue_type S A)
    (event : event_type S A) (before after : slot_list_type A W E) (node : slot_node A W E)
    (e : E) (st : state S A W E)
    (hq : st.m_event_queue = first ++ event :: later)
    (hlim : limit = 0 ∨ first.length < limit)
    (hfirst : events_succeed (chain_of st.m_slot_map) first st.world)
    (hchain : chain_of st.m_slot_map event.1 = before ++ node :: after)
    (hb : chain_succeeds event.2 before (run_events (chain_of st.m_slot_map) first st.world))
    (hf : (node.slot event.2 (run_chain event.2 before
      (run_events (chain_of st.m_slot_map) first st.world))).2 = some e) :
    respond limit st =
      ({ m_slot_map := index_all st.m_slot_map (first ++ [event]),
         m_event_queue := event :: later,
         next_node := st.next_node,
         world := (node.slot event.2 (run_chain event.2 before
           (run_events (chain_of st.m_slot_map) first st.world))).1,
         calls := st.calls ++ invocations (chain_of st.m_slot_map) first ++
           (before ++ [node]).map (fun n => (n, event.2)) }, .error e) := by
  unfold respond
  have hne : ¬ st.m_event_queue.length = 0 := by
    rw [hq]
    simp
  rw [if_neg hne]
  have hloop := respond_loop_fails limit first later event before after node e 0 st
    (by omega) hfirst hchain hb hf
  rw [← hq] at hloop
  rw [hloop]
  simp [hq]

theorem fire_chain_extends (args : A) (chain : slot_list_type A W E) (st : state S A W E) :
    ∃ rest, (fire_chain args chain st).1.calls = st.calls ++ rest := by
  induction chain generalizing st with
  | nil => exact ⟨[], by simp [fire_chain]⟩
  | cons node tail ih =>
    rw [fire_chain]
    rcases hr : node.slot args st.world with ⟨w, err⟩
    cases err with
    | some e => exact ⟨[(node, args)], rfl⟩
    | none =>
      obtain ⟨rest, hrest⟩ := ih { st with world := w, calls := st.calls ++ [(node, args)] }
      exact ⟨(node, args) :: rest, by simp only [hrest]; simp⟩

theorem respond_loop_extends (limit : Nat) (events : event_queue_type S A) (progress : Nat)
    (st : state S A W E) :
    ∃ rest, (respond_loop limit events progress st).1.calls = st.calls ++ rest := by
  induction events generalizing progress st with
  | nil => exact ⟨[], by simp [respond_loop]⟩
  | cons event tail ih =>
    rw [respond_loop]
    simp only
    obtain ⟨rest1, h1⟩ := fire_chain_extends event.2 (slot_map_index st.m_slot_map event.1).1
      { st with m_slot_map := (slot_map_index st.m_slot_map event.1).2 }
    rcases hfc : fire_chain event.2 (slot_map_index st.m_slot_map event.1).1
      { st with m_slot_map := (slot_map_index st.m_slot_map event.1).2 } with ⟨st1, err⟩
    rw [hfc] at h1
    cases err with
    | some e => exact ⟨rest1, h1⟩
    | none =>
      simp only
      by_cases hp : progress + 1 = limit
      · rw [if_pos hp]
        exact ⟨rest1, h1⟩
      · rw [if_neg hp]
        obtain ⟨rest2, h2⟩ := ih (progress + 1)
          { st1 with m_event_queue := st1.m_event_queue.tail }
        refine ⟨rest1 ++ rest2, ?_⟩
        rw [h2]
        simp only at h1 ⊢
        rw [h1, List.append_assoc]

theorem fire_chain_begins (args : A) (before after : slot_list_type A W E)
    (node : slot_node A W E) (st : state S A W E)
    (hb : chain_succeeds args before st.world) :
    ∃ rest, (fire_chain args (before ++ node :: after) st).1.calls =
      st.calls ++ (before ++ [node]).map (fun n => (n, args)) ++ rest := by
  induction before generalizing st with
  | nil =>
    rw [List.nil_append, fire_chain]
    rcases hr : node.slot args st.world with ⟨w, err⟩
    cases err with
    | some e => exact ⟨[], by simp⟩
    | none =>
      obtain ⟨rest, hrest⟩ := fire_chain_extends args after
        { st with world := w, calls := st.calls ++ [(node, args)] }
      exact ⟨rest, by simp only [hrest]; simp⟩
  | cons n tail ih =>
    obtain ⟨h1, h2⟩ := hb
    rw [List.cons_append, fire_chain]
    rcases hr : n.slot args st.world with ⟨w, err⟩
    rw [hr] at h1 h2
    simp only at h1 h2
    subst h1
    simp only
    obtain ⟨rest, hrest⟩ := ih { st with world := w, calls := st.calls ++ [(n, args)] } h2
    exact ⟨rest, by rw [hrest]; simp⟩

theorem respond_begins (limit : Nat) (event : event_type S A) (later : event_queue_type S A)
    (before after : slot_list_type A W E) (node : slot_node A W E) (st : state S A W E)
    (hq : st.m_event_queue = event :: later)
    (hchain : chain_of st.m_slot_map event.1 = before ++ node :: after)
    (hb : chain_succeeds event.2 before st.world) :
    ∃ rest, (respond limit st).1.calls =
      st.calls ++ (before ++ [node]).map (fun n => (n, event.2)) ++ rest := by
  unfold respond
  have hne : ¬ st.m_event_queue.length = 0 := by
    rw [hq]
    simp
  rw [if_neg hne, hq, respond_loop]
  simp only [slot_map_index_fst, hchain]
  obtain ⟨rest1, h1⟩ := fire_chain_begins event.2 before after node
    { st with m_slot_map := (slot_map_index st.m_slot_map event.1).2 } hb
  rcases hfc : fire_chain event.2 (before ++ node :: after)
    { st with m_slot_map := (slot_map_index st.m_slot_map event.1).2 } with ⟨st1, err⟩
  rw [hfc] at h1
  simp only at h1
  cases err with
  | some e => exact ⟨rest1, h1⟩
  | none =>
    simp only
    by_cases hp : 0 + 1 = limit
    · rw [if_pos hp]
      exact ⟨rest1, h1⟩
    · rw [if_neg hp]
      obtain ⟨rest2, h2⟩ := respond_loop_extends limit later (0 + 1)
        { st1 with m_event_queue := st1.m_event_queue.tail }
      rcases hrl : respond_loop limit later (0 + 1)
        { st1 with m_event_queue := st1.m_event_queue.tail } with ⟨st2, err2⟩
      rw [hrl] at h2
      simp only at h2
      refine ⟨rest1 ++ rest2, ?_⟩
      cases err2 <;> simp only [h2, h1, List.append_assoc]

theorem respond_loop_error (limit : Nat) (events : event_queue_type S A) (progress : Nat)
    (st st1 : state S A W E) (e : E)
    (h : respond_loop limit events progress st = (st1, some e)) :
    ∃ first event later before node after,
      events = first ++ event :: later ∧
      (limit ≤ progress ∨ progress + first.length < limit) ∧
      events_succeed (chain_of st.m_slot_map) first st.world ∧
      chain_of st.m_slot_map event.1 = before ++ node :: after ∧
      chain_succeeds event.2 before (run_events (chain_of st.m_slot_map) first st.world) ∧
      (node.slot event.2 (run_chain event.2 before
        (run_events (chain_of st.m_slot_map) first st.world))).2 = some e := by
  induction events generalizing progress st with
  | nil => simp [respond_loop] at h
  | cons ev rest ih =>
    rw [respond_loop] at h
    simp only [slot_map_index_fst] at h
    rcases chain_split ev.2 (chain_of st.m_slot_map ev.1) st.world with
      hs | ⟨before, node, after, e2, hc, hb, hf⟩
    · rw [fire_chain_succeeds ev.2 (chain_of st.m_slot_map ev.1)
        { st with m_slot_map := (slot_map_index st.m_slot_map ev.1).2 } hs] at h
      simp only at h
      by_cases hp : progress + 1 = limit
      · rw [if_pos hp] at h
        simp at h
      · rw [if_neg hp] at h
        obtain ⟨first, event, later, before, node, after, hev, hlim, hfirst, hchain, hb, hf⟩ :=
          ih _ _ h
        simp only [chain_of_slot_map_index] at hfirst hchain hb hf
        refine ⟨ev :: first, event, later, before, node, after, by rw [hev]; rfl, ?_,
          ⟨hs, hfirst⟩, hchain, hb, hf⟩
        rw [List.length_cons]
        omega
    · rw [hc, fire_chain_fails ev.2 before after node
        { st with m_slot_map := (slot_map_index st.m_slot_map ev.1).2 } e2 hb hf] at h
      simp only [Prod.mk.injEq, Option.some.injEq] at h
      obtain ⟨_, he⟩ := h
      subst he
      exact ⟨[], ev, rest, before, node, after, rfl, by simp only [List.length_nil]; omega,
        trivial, hc, hb, hf⟩

theorem respond_error (limit : Nat) (st : state S A W E) (e : E)
    (h : (respond limit st).2 = .error e) :
    ∃ first event later before node after,
      st.m_event_queue = first ++ event :: later ∧
      (limit = 0 ∨ first.length < limit) ∧
      events_succeed (chain_of st.m_slot_map) first st.world ∧
      chain_of st.m_slot_map event.1 = before ++ node :: after ∧
      chain_succeeds event.2 before (run_events (chain_of st.m_slot_map) first st.world) ∧
      (node.slot event.2 (run_chain event.2 before
        (run_events (chain_of st.m_slot_map) first st.world))).2 = some e := by
  unfold respond at h
  by_cases hq : st.m_event_queue.length = 0
  · rw [if_pos hq] at h
    simp at h
  · rw [if_neg hq] at h
    rcases hloop : respond_loop limit st.m_event_queue 0 st with ⟨st1, err⟩
    rw [hloop] at h
    cases err with
    | none => simp at h
    | some e2 =>
      simp only [Except.error.injEq] at h
      subst h
      obtain ⟨first, event, later, before, node, after, hev, hlim, hrest⟩ :=
        respond_loop_error limit _ 0 st st1 e2 hloop
      exact ⟨first, event, later, before, node, after, hev, by omega, hrest⟩

theorem demo_guarded_first :
    events_succeed (chain_of demo_guarded.m_slot_map)
      [(demo_signal.X, 1), (demo_signal.X, 2)] demo_guarded.world :=
  ⟨⟨rfl, rfl, trivial⟩, ⟨rfl, rfl, trivial⟩, trivial⟩

theorem demo_guarded_before :
    chain_succeeds (demo_signal.X, 3).2
      [(⟨0, demo_slot 1⟩ : slot_node Nat (List (Nat × Nat)) Unit)]
      (run_events (chain_of demo_guarded.m_slot_map)
        [(demo_signal.X, 1), (demo_signal.X, 2)] demo_guarded.world) :=
  ⟨rfl, trivial⟩

theorem demo_guarded_can_fail :
    ¬ never_fails (chain_of demo_guarded.m_slot_map) [(demo_signal.X, 1), (demo_signal.X, 2)] := by
  intro h
  have h1 := h (demo_signal.X, 1) (List.mem_cons_self _ _) ⟨1, demo_guarded_slot 9 5⟩
    (List.mem_cons_of_mem _ (List.mem_cons_self _ _)) (List.replicate 5 (0, 0))
  cases h1

theorem respond_fired_alone (signal : S) (g : slot_type A W E) (args : A) (w : W) :
    (emplace_back_slot signal g (state.init w : state S A W E)).2.m_slot_map signal =
      some [⟨0, g⟩] ∧
    (respond 0 (push_event signal args
      (emplace_back_slot signal g (state.init w : state S A W E)).2)).1.world = (g args w).1 ∧
    (respond 0 (push_event signal args
      (emplace_back_slot signal g (state.init w : state S A W E)).2)).2 =
      (match (g args w).2 with
        | none => .ok false
        | some e => .error e) := by
  rw [emplace_back_slot_eq]
  refine ⟨by simp [state.init, chain_of], ?_⟩
  unfold respond push_event
  simp only [state.init, chain_of, Option.getD_none, List.nil_append, List.length_singleton,
    one_ne_zero, if_false]
  unfold respond_loop slot_map_index
  simp only [Function.update_same]
  unfold fire_chain
  rcases hg : g args w with ⟨w1, err⟩
  cases err with
  | some e => simp [hg]
  | none => simp [hg, fire_chain, respond_loop]

/-! ### Lemmas on events without slots -/

theorem invocations_without_slots (chains : S → slot_list_type A W E)
    (events : event_queue_type S A) (h : ∀ event ∈ events, chains event.1 = []) :
    invocations chains events = [] := by
  induction events with
  | nil => rfl
  | cons event rest ih =>
    unfold invocations at ih ⊢
    rw [List.flatMap_cons, h event (List.mem_cons_self _ _),
      ih (fun ev hev => h ev (List.mem_cons_of_mem _ hev))]
    rfl

theorem run_events_without_slots (chains : S → slot_list_type A W E)
    (events : event_queue_type S A) (w : W) (h : ∀ event ∈ events, chains event.1 = []) :
    run_events chains events w = w := by
  induction events with
  | nil => rfl
  | cons event rest ih =>
    unfold run_events at ih ⊢
    rw [List.foldl_cons, h event (List.mem_cons_self _ _)]
    exact ih (fun ev hev => h ev (List.mem_cons_of_mem _ hev))

theorem never_fails_without_slots (chains : S → slot_list_type A W E)
    (events : event_queue_type S A) (h : ∀ event ∈ events, chains event.1 = []) :
    never_fails chains events := by
  intro event he node hn
  rw [h event he] at hn
  cases hn

theorem respond_zero_without_slots (st : state S A W E)
    (h : ∀ event ∈ st.m_event_queue, chain_of st.m_slot_map event.1 = []) :
    respond 0 st =
      ({ st with
         m_slot_map := index_all st.m_slot_map st.m_event_queue,
         m_event_queue := [] }, .ok false) := by
  rw [respond_zero_ok st (never_fails_without_slots _ _ h), invocations_without_slots _ _ h,
    run_events_without_slots _ _ _ h, List.append_nil]

/-! ### Lemmas on repeated calls of `respond` -/

theorem respond_one_ok (st : state S A W E) (event : event_type S A)
    (rest : event_queue_type S A) (hq : st.m_event_queue = event :: rest)
    (h : never_fails (chain_of st.m_slot_map) st.m_event_queue) :
    respond 1 st =
      ({ m_slot_map := (slot_map_index st.m_slot_map event.1).2,
         m_event_queue := rest,
         next_node := st.next_node,
         world := run_chain event.2 (chain_of st.m_slot_map event.1) st.world,
         calls := st.calls ++ (chain_of st.m_slot_map event.1).map (fun node => (node, event.2)) },
       .ok (decide (0 < rest.length))) := by
  rw [respond_ok 1 st h, hq, List.length_cons, stop_count_limit 1 _ (by omega) (by omega)]
  simp [index_all, run_events, invocations]

theorem respond_repeat_one_ok (count : Nat) (queue : event_queue_type S A)
    (st : state S A W E) (hq : st.m_event_queue = queue) (hc : count ≤ queue.length)
    (h : never_fails (chain_of st.m_slot_map) queue) :
    respond_repeat 1 count st =
      ({ m_slot_map := index_all st.m_slot_map (queue.take count),
         m_event_queue := queue.drop count,
         next_node := st.next_node,
         world := run_events (chain_of st.m_slot_map) (queue.take count) st.world,
         calls := st.calls ++ invocations (chain_of st.m_slot_map) (queue.take count) },
       (List.range count).map (fun i => .ok (decide (i + 1 < queue.length)))) := by
  induction count generalizing queue st with
  | zero =>
    simp [respond_repeat, index_all, run_events, invocations, ← hq]
  | succ n ih =>
    cases queue with
    | nil => simp at hc
    | cons event rest =>
      rw [List.length_cons] at hc
      rw [respond_repeat, respond_one_ok st event rest hq (hq ▸ h)]
      simp only
      rw [ih rest _ rfl (by omega)]
      · simp only [List.range_succ_eq_map, List.map_cons, List.map_map, List.take_succ_cons,
          List.drop_succ_cons, index_all_cons, chain_of_slot_map_index, List.length_cons]
        congr 1
        · simp [run_events, invocations]
        · congr 1
          · simp
          · apply List.map_congr_left
            intro i _
            simp
      · simp only [chain_of_slot_map_index]
        exact fun ev hev => h ev (List.mem_cons_of_mem _ hev)

theorem range_results (n : Nat) (hn : 1 ≤ n) :
    (List.range n).map (fun i => (.ok (decide (i + 1 < n)) : Except E Bool)) =
      List.replicate (n - 1) (.ok true) ++ [.ok false] := by
  obtain ⟨m, rfl⟩ : ∃ m, n = m + 1 := ⟨n - 1, by omega⟩
  rw [List.range_succ, List.map_append]
  congr 1
  · rw [List.eq_replicate_iff]
    refine ⟨by simp, ?_⟩
    intro b hb
    obtain ⟨i, hi, rfl⟩ := List.mem_map.1 hb
    rw [List.mem_range] at hi
    simp [hi]
  · simp

/-! ### Lemmas on the passes of `purge_events` -/

theorem purge_events_run_eq (signal : S) (count : Nat) (queue : event_queue_type S A)
    (st : state S A W E) (hq : st.m_event_queue = queue) :
    purge_events_run signal count st =
      { st with
        m_event_queue :=
          queue.drop
            (min count (queue.takeWhile (fun event => decide (event.1 = signal))).length) } := by
  induction count generalizing queue st with
  | zero =>
    simp [purge_events_run, ← hq]
  | succ n ih =>
    cases queue with
    | nil =>
      rw [purge_events_run]
      unfold purge_events_step
      simp [hq]
      rw [← hq]
    | cons event rest =>
      rw [purge_events_run]
      unfold purge_events_step
      simp only [hq]
      by_cases he : event.1 = signal
      · rw [if_pos he]
        simp only
        rw [ih rest _ rfl]
        simp [List.takeWhile_cons, he, Nat.succ_min_succ]
      · rw [if_neg he]
        simp only
        rw [ih (event :: rest) st hq]
        simp [List.takeWhile_cons, he]

theorem take_leading_run (signal : S) (queue : event_queue_type S A) (j : Nat)
    (hj : j ≤ (queue.takeWhile (fun event => decide (event.1 = signal))).length) :
    ∀ event ∈ queue.take j, event.1 = signal := by
  induction queue generalizing j with
  | nil => intro event he; simp at he
  | cons x rest ih =>
    cases j with
    | zero => intro event he; simp at he
    | succ k =>
      by_cases hx : x.1 = signal
      · simp only [List.takeWhile_cons, hx, decide_True, if_true, List.length_cons] at hj
        intro event he
        rw [List.take_succ_cons, List.mem_cons] at he
        rcases he with he | he
        · rw [he]; exact hx
        · exact ih k (by omega) event he
      · simp [List.takeWhile_cons, hx] at hj

theorem drop_leading_run (signal : S) (queue : event_queue_type S A) :
    queue.drop (queue.takeWhile (fun event => decide (event.1 = signal))).length =
      queue.dropWhile (fun event => decide (event.1 = signal)) := by
  induction queue with
  | nil => rfl
  | cons x rest ih =>
    by_cases hx : x.1 = signal
    · simp [List.takeWhile_cons, List.dropWhile_cons, hx, ih]
    · simp [List.takeWhile_cons, List.dropWhile_cons, hx]

theorem purge_events_some (signal : S) (fuel : Nat) (st st1 : state S A W E)
    (h : purge_events signal fuel st = some st1) :
    (∀ event ∈ st.m_event_queue, event.1 = signal) ∧ st1 = { st with m_event_queue := [] } := by
  induction fuel generalizing st with
  | zero => simp [purge_events] at h
  | succ n ih =>
    rw [purge_events] at h
    unfold purge_events_step at h
    cases hq : st.m_event_queue with
    | nil =>
      simp only [hq] at h
      cases h
      refine ⟨?_, ?_⟩
      · intro event he
        cases he
      · rw [← hq]
    | cons event rest =>
      simp only [hq] at h
      by_cases he : event.1 = signal
      · rw [if_pos he] at h
        obtain ⟨hall, hst⟩ := ih _ h
        refine ⟨?_, hst⟩
        intro ev hev
        rcases List.mem_cons.1 hev with hev | hev
        · rw [hev]; exact he
        · exact hall ev hev
      · rw [if_neg he] at h
        obtain ⟨hall, _⟩ := ih _ h
        exact absurd (hall event (by rw [hq]; exact List.mem_cons_self _ _)) he

theorem dropWhile_head_differs (signal : S) (queue : event_queue_type S A)
    (h : ∃ event ∈ queue, event.1 ≠ signal) :
    ∃ event rest, queue.dropWhile (fun ev => decide (ev.1 = signal)) = event :: rest ∧
      event.1 ≠ signal := by
  induction queue with
  | nil =>
    obtain ⟨event, he, _⟩ := h
    cases he
  | cons x tail ih =>
    by_cases hx : x.1 = signal
    · obtain ⟨event, he, hne⟩ := h
      have htail : ∃ ev ∈ tail, ev.1 ≠ signal := by
        rcases List.mem_cons.1 he with he | he
        · rw [he] at hne
          exact absurd hx hne
        · exact ⟨event, he, hne⟩
      obtain ⟨ev, rest, hd, hne2⟩ := ih htail
      exact ⟨ev, rest, by simp [List.dropWhile_cons, hx, hd], hne2⟩
    · exact ⟨x, tail, by simp [List.dropWhile_cons, hx], hx⟩

/-! ### Lemmas on the order of disconnects -/

theorem chain_of_map_filter (m : slot_map_type S A W E) (q : S → slot_node A W E → Bool)
    (s : S) :
    chain_of (fun s1 => (m s1).map (List.filter (q s1))) s = (chain_of m s).filter (q s) := by
  show ((m s).map (List.filter (q s))).getD [] = ((m s).getD []).filter (q s)
  cases m s <;> rfl

theorem disconnect_map (slot_id : slot_id_type S) (st : state S A W E) (h : live st slot_id) :
    disconnect slot_id st =
      some { st with
        m_slot_map := fun s =>
          (st.m_slot_map s).map (List.filter (fun node => decide ((s, node.id) ≠ slot_id))) } := by
  rw [disconnect_eq slot_id st h]
  congr 2
  funext s
  by_cases hs : s = slot_id.1
  · subst hs
    rw [Function.update_same]
    unfold live chain_of at h
    unfold chain_of
    cases hm : st.m_slot_map slot_id.1 with
    | none => rw [hm] at h; simp at h
    | some chain =>
      simp only [Option.getD_some, Option.map_some']
      congr 1
      apply List.filter_congr
      intro node _
      by_cases hn : node.id = slot_id.2
      · simp [hn]
      · have : (slot_id.1, node.id) ≠ slot_id := fun e => hn (congrArg Prod.snd e)
        simp [hn, this]
  · rw [Function.update_noteq hs]
    cases hm : st.m_slot_map s with
    | none => rfl
    | some chain =>
      simp only [Option.map_some']
      congr 1
      symm
      rw [List.filter_eq_self]
      intro node _
      have : (s, node.id) ≠ slot_id := fun e => hs (congrArg Prod.fst e)
      simp [this]

theorem destroy_map (handles : List (slot_id_type S)) (st : state S A W E)
    (hd : handles.Nodup) (hl : ∀ h ∈ handles, live st h) :
    handles.foldlM (fun st2 handle => disconnect handle st2) st =
      some { st with
        m_slot_map := fun s =>
          (st.m_slot_map s).map (List.filter (fun node => decide ((s, node.id) ∉ handles))) } := by
  induction handles generalizing st with
  | nil =>
    rw [List.foldlM_nil]
    obtain ⟨m, queue, next, w, calls⟩ := st
    show some _ = some _
    congr 2
    funext s
    cases hm : m s <;> simp [hm]
  | cons h rest ih =>
    rw [List.nodup_cons] at hd
    rw [List.foldlM_cons, disconnect_map h st (hl h (List.mem_cons_self _ _))]
    show List.foldlM _ _ rest = _
    rw [ih _ hd.2]
    · congr 2
      funext s
      show Option.map _ (Option.map _ (st.m_slot_map s)) = Option.map _ (st.m_slot_map s)
      cases st.m_slot_map s with
      | none => rfl
      | some chain =>
        simp only [Option.map_some', List.filter_filter]
        congr 1
        apply List.filter_congr
        intro node _
        by_cases e1 : (s, node.id) = h
        · simp [e1]
        · by_cases e2 : (s, node.id) ∈ rest
          · simp [e1, e2]
          · simp [e1, e2]
    · intro h2 h2mem
      apply live_filter st h2 (fun s i => decide ((s, i) ≠ h)) _
        (fun s => chain_of_map_filter st.m_slot_map (fun s1 node => decide ((s1, node.id) ≠ h)) s)
      · have : h2 ≠ h := fun e => hd.1 (e ▸ h2mem)
        simpa using this
      · exact hl h2 (List.mem_cons_of_mem _ h2mem)

theorem destroy_perm (handles handles2 : List (slot_id_type S)) (st : state S A W E)
    (hp : handles.Perm handles2) (hd : handles.Nodup) (hl : ∀ h ∈ handles, live st h) :
    handles.foldlM (fun st2 handle => disconnect handle st2) st =
      handles2.foldlM (fun st2 handle => disconnect handle st2) st := by
  rw [destroy_map handles st hd hl,
    destroy_map handles2 st (hp.nodup_iff.1 hd) (fun h hm => hl h (hp.mem_iff.2 hm))]
  congr 2
  funext s
  congr 2
  funext node
  simp only [hp.mem_iff]

theorem foldlM_pair (a b : slot_id_type S) (st : state S A W E) :
    [a, b].foldlM (fun st2 handle => disconnect handle st2) st =
      (disconnect a st).bind (disconnect b) := by
  simp only [List.foldlM_cons, List.foldlM_nil]
  cases disconnect a st with
  | none => rfl
  | some st1 =>
    show (disconnect b st1 >>= pure) = disconnect b st1
    rw [bind_pure]

/-! ### Lemmas on states with the same lists -/

theorem fire_chain_same_view (args : A) (chain : slot_list_type A W E)
    (st st2 : state S A W E) (h : same_view st st2) :
    same_view (fire_chain args chain st).1 (fire_chain args chain st2).1 ∧
    (fire_chain args chain st).2 = (fire_chain args chain st2).2 := by
  induction chain generalizing st st2 with
  | nil => exact ⟨h, rfl⟩
  | cons node tail ih =>
    obtain ⟨hc, hq, hw, hcalls⟩ := h
    rw [fire_chain, fire_chain, hw]
    rcases hr : node.slot args st2.world with ⟨w, err⟩
    cases err with
    | some e => exact ⟨⟨hc, hq, rfl, by simp only [hcalls]⟩, rfl⟩
    | none => exact ih _ _ ⟨hc, hq, rfl, by simp only [hcalls]⟩

theorem respond_loop_same_view (limit : Nat) (events : event_queue_type S A) (progress : Nat)
    (st st2 : state S A W E) (h : same_view st st2) :
    same_view (respond_loop limit events progress st).1 (respond_loop limit events progress st2).1 ∧
    (respond_loop limit events progress st).2 = (respond_loop limit events progress st2).2 := by
  induction events generalizing progress st st2 with
  | nil => exact ⟨h, rfl⟩
  | cons event tail ih =>
    obtain ⟨hc, hq, hw, hcalls⟩ := h
    rw [respond_loop, respond_loop]
    simp only [slot_map_index_fst]
    rw [hc]
    have hview : same_view
        { st with m_slot_map := (slot_map_index st.m_slot_map event.1).2 }
        { st2 with m_slot_map := (slot_map_index st2.m_slot_map event.1).2 } :=
      ⟨by simp only [chain_of_slot_map_index]; exact hc, hq, hw, hcalls⟩
    obtain ⟨hv, he⟩ := fire_chain_same_view event.2 (chain_of st2.m_slot_map event.1) _ _ hview
    rcases hf1 : fire_chain event.2 (chain_of st2.m_slot_map event.1)
      { st with m_slot_map := (slot_map_index st.m_slot_map event.1).2 } with ⟨sa, ea⟩
    rcases hf2 : fire_chain event.2 (chain_of st2.m_slot_map event.1)
      { st2 with m_slot_map := (slot_map_index st2.m_slot_map event.1).2 } with ⟨sb, eb⟩
    rw [hf1, hf2] at hv he
    simp only at hv he
    subst he
    cases ea with
    | some e => exact ⟨hv, rfl⟩
    | none =>
      simp only
      have hv2 : same_view { sa with m_event_queue := sa.m_event_queue.tail }
          { sb with m_event_queue := sb.m_event_queue.tail } :=
        ⟨hv.1, by simp only [hv.2.1], hv.2.2.1, hv.2.2.2⟩
      by_cases hp : progress + 1 = limit
      · rw [if_pos hp, if_pos hp]
        exact ⟨hv2, rfl⟩
      · rw [if_neg hp, if_neg hp]
        exact ih _ _ _ hv2

theorem respond_same_view (limit : Nat) (st st2 : state S A W E) (h : same_view st st2) :
    same_view (respond limit st).1 (respond limit st2).1 ∧
    (respond limit st).2 = (respond limit st2).2 := by
  unfold respond
  rw [h.2.1]
  by_cases hq : st2.m_event_queue.length = 0
  · rw [if_pos hq, if_pos hq]
    exact ⟨h, rfl⟩
  · rw [if_neg hq, if_neg hq]
    obtain ⟨hv, he⟩ := respond_loop_same_view limit st2.m_event_queue 0 st st2 h
    rcases h1 : respond_loop limit st2.m_event_queue 0 st with ⟨sa, ea⟩
    rcases h2 : respond_loop limit st2.m_event_queue 0 st2 with ⟨sb, eb⟩
    rw [h1, h2] at hv he
    simp only at hv he
    subst he
    cases ea with
    | some e => exact ⟨hv, rfl⟩
    | none => exact ⟨hv, by simp only [hv.2.1]⟩

theorem connect_disconnect_eq (signal : S) (slot : slot_type A W E) (st : state S A W E)
    (hfresh : ∀ node ∈ chain_of st.m_slot_map signal, node.id < st.next_node) :
    disconnect (connect signal slot st).1 (connect signal slot st).2 =
      some { st with
        m_slot_map :=
          Function.update st.m_slot_map signal (some (chain_of st.m_slot_map signal)),
        next_node := st.next_node + 1 } := by
  unfold connect
  rw [emplace_back_slot_eq]
  have hlive : live
      ({ st with
         m_slot_map :=
           Function.update st.m_slot_map signal
             (some (chain_of st.m_slot_map signal ++ [⟨st.next_node, slot⟩])),
         next_node := st.next_node + 1 } : state S A W E) (signal, st.next_node) := by
    unfold live
    simp [chain_of_update_same]
  rw [disconnect_eq _ _ hlive]
  have hfilter : (chain_of st.m_slot_map signal ++
      [(⟨st.next_node, slot⟩ : slot_node A W E)]).filter
      (fun node => node.id != st.next_node) = chain_of st.m_slot_map signal := by
    rw [List.filter_append]
    have hold : (chain_of st.m_slot_map signal).filter (fun node => node.id != st.next_node) =
        chain_of st.m_slot_map signal := by
      rw [List.filter_eq_self]
      intro node hn
      have := hfresh node hn
      simp
      omega
    rw [hold]
    simp
  simp only [chain_of_update_same, hfilter, Function.update_idem]

theorem chain_of_update_self (m : slot_map_type S A W E) (signal : S) :
    chain_of (Function.update m signal (some (chain_of m signal))) = chain_of m := by
  funext s
  by_cases hs : s = signal
  · subst hs
    exact chain_of_update_same _ _ _
  · exact chain_of_update_other _ _ _ _ hs

theorem same_view_push_all (events : event_queue_type S A) (st st2 : state S A W E)
    (h : same_view st st2) : same_view (push_all events st) (push_all events st2) := by
  rw [push_all_spec, push_all_spec]
  exact ⟨h.1, by simp only [h.2.1], h.2.2.1, h.2.2.2⟩

theorem demo_queued_fresh :
    ∀ node ∈ chain_of demo_queued.m_slot_map demo_signal.X, node.id < demo_queued.next_node := by
  intro node hn
  have hX : chain_of demo_queued.m_slot_map demo_signal.X =
      [⟨0, demo_slot 1⟩, ⟨1, demo_slot 2⟩] := rfl
  rw [hX] at hn
  simp only [List.mem_cons, List.mem_singleton, List.not_mem_nil, or_false] at hn
  rcases hn with rfl | rfl <;> decide

/-! ### The claims -/

/-- C1: when no slot the queued events call for fails, `respond(0)` invokes,
for each queued event in push order, the slots of the chain of its signal with
the arguments of the event, leaves the queue empty and returns false. -/
theorem respond_zero_processes_all (st : state S A W E)
    (h : never_fails (chain_of st.m_slot_map) st.m_event_queue) :
    respond 0 st =
      ({ m_slot_map := index_all st.m_slot_map st.m_event_queue,
         m_event_queue := [],
         next_node := st.next_node,
         world := run_events (chain_of st.m_slot_map) st.m_event_queue st.world,
         calls := st.calls ++ invocations (chain_of st.m_slot_map) st.m_event_queue },
       .ok false) := by
  exact respond_zero_ok st h

/-- C1 at the example: slots 1 and 2 on `X`, queue `(X, 5)`, `(Y, 6)`, `(X, 7)`. -/
theorem respond_zero_processes_all_witness :
    never_fails (chain_of demo_queued.m_slot_map) demo_queued.m_event_queue ∧
    (respond 0 demo_queued).1.m_event_queue = [] ∧
    (respond 0 demo_queued).1.world = [(1, 5), (2, 5), (1, 7), (2, 7)] ∧
    (respond 0 demo_queued).1.calls.map (fun c => (c.1.id, c.2)) = [(0, 5), (1, 5), (0, 7), (1, 7)] ∧
    (respond 0 demo_queued).2 = .ok false :=
  have h := demo_queued_never_fails
  ⟨h, by rw [respond_zero_processes_all demo_queued h],
    by rw [respond_zero_processes_all demo_queued h]; rfl,
    by rw [respond_zero_processes_all demo_queued h]; rfl,
    by rw [respond_zero_processes_all demo_queued h]⟩

/-- C2: after `connect(signal, f1)`, ..., `connect(signal, fN)` on a state in
which the chain of `signal` is empty, and any events pushed before or after,
`respond(0)` (no slot failing) invokes for every queued event of `signal`
exactly `f1`, ..., `fN` in that order with the arguments of the event, and for
an event of another signal the chain that signal had. -/
theorem connect_order_respected (signal : S) (slots : List (slot_type A W E))
    (events : event_queue_type S A) (st : state S A W E)
    (h0 : chain_of st.m_slot_map signal = [])
    (hf : never_fails (chain_of (connect_all signal slots st).m_slot_map)
      (st.m_event_queue ++ events)) :
    (respond 0 (push_all events (connect_all signal slots st))).1.calls.map
        (fun c => (c.1.slot, c.2)) =
      st.calls.map (fun c => (c.1.slot, c.2)) ++
      (st.m_event_queue ++ events).flatMap (fun event =>
        if event.1 = signal then slots.map (fun f => (f, event.2))
        else (chain_of st.m_slot_map event.1).map (fun node => (node.slot, event.2))) ∧
    (respond 0 (push_all events (connect_all signal slots st))).1.m_event_queue = [] ∧
    (respond 0 (push_all events (connect_all signal slots st))).2 = .ok false := by
  obtain ⟨h1, h2, h3, h4, h5⟩ := connect_all_spec signal slots st
  rw [push_all_spec]
  rw [respond_zero_ok]
  · refine ⟨?_, rfl, rfl⟩
    simp only [h3, h5, List.map_append, invocations_slots]
    congr 1
    apply List.flatMap_congr
    intro event _
    by_cases he : event.1 = signal
    · rw [if_pos he, he, h1, h0]
      simp
    · rw [if_neg he, h2 _ he]
      simp
  · simpa [h3] using hf

/-- C2 at scenario A: slots 1 then 2 connected to `X` in the empty domain,
`(X, 5)` pushed, `respond()`: slot 1 runs on 5, then slot 2 runs on 5. -/
theorem connect_order_respected_witness :
    chain_of (state.init [] : demo_state).m_slot_map demo_signal.X = [] ∧
    never_fails
      (chain_of (connect_all demo_signal.X [demo_slot 1, demo_slot 2]
        (state.init [] : demo_state)).m_slot_map)
      ((state.init [] : demo_state).m_event_queue ++ [(demo_signal.X, 5)]) ∧
    (respond 0 (push_all [(demo_signal.X, 5)]
      (connect_all demo_signal.X [demo_slot 1, demo_slot 2] (state.init [] : demo_state)))).1.calls.map
        (fun c => (c.1.slot, c.2)) = [(demo_slot 1, 5), (demo_slot 2, 5)] ∧
    (respond 0 (push_all [(demo_signal.X, 5)]
      (connect_all demo_signal.X [demo_slot 1, demo_slot 2] (state.init [] : demo_state)))).1.world =
        [(1, 5), (2, 5)] := by
  have h0 : chain_of (state.init [] : demo_state).m_slot_map demo_signal.X = [] := rfl
  have hf : never_fails
      (chain_of (connect_all demo_signal.X [demo_slot 1, demo_slot 2]
        (state.init [] : demo_state)).m_slot_map)
      ((state.init [] : demo_state).m_event_queue ++ [(demo_signal.X, 5)]) := by
    apply never_fails_of_total
    intro signal node hn args w
    cases signal
    · have hX : chain_of (connect_all demo_signal.X [demo_slot 1, demo_slot 2]
          (state.init [] : demo_state)).m_slot_map demo_signal.X =
          [⟨0, demo_slot 1⟩, ⟨1, demo_slot 2⟩] := rfl
      rw [hX] at hn
      simp only [List.mem_cons, List.mem_singleton, List.not_mem_nil, or_false] at hn
      rcases hn with rfl | rfl <;> rfl
    · have hY : chain_of (connect_all demo_signal.X [demo_slot 1, demo_slot 2]
          (state.init [] : demo_state)).m_slot_map demo_signal.Y = [] := rfl
      rw [hY] at hn
      cases hn
  refine ⟨h0, hf, ?_, rfl⟩
  rw [(connect_order_respected demo_signal.X [demo_slot 1, demo_slot 2] [(demo_signal.X, 5)]
    (state.init [] : demo_state) h0 hf).1]
  rfl

/-- C3: when no slot the queued events call for fails and `0 < k < n` for a
queue of `n` events, `respond(k)` invokes the chains of the first `k` events in
queue order, leaves the queue without its first `k` events and returns true; a
following `respond(0)` invokes the chains of the remaining events in order,
leaves the queue empty and returns false. -/
theorem respond_limit_then_drain (st : state S A W E) (k : Nat)
    (hk : 0 < k) (hkn : k < st.m_event_queue.length)
    (h : never_fails (chain_of st.m_slot_map) st.m_event_queue) :
    respond k st =
      ({ m_slot_map := index_all st.m_slot_map (st.m_event_queue.take k),
         m_event_queue := st.m_event_queue.drop k,
         next_node := st.next_node,
         world := run_events (chain_of st.m_slot_map) (st.m_event_queue.take k) st.world,
         calls := st.calls ++ invocations (chain_of st.m_slot_map) (st.m_event_queue.take k) },
       .ok true) ∧
    respond 0 (respond k st).1 =
      ({ m_slot_map := index_all (index_all st.m_slot_map (st.m_event_queue.take k))
           (st.m_event_queue.drop k),
         m_event_queue := [],
         next_node := st.next_node,
         world := run_events (chain_of st.m_slot_map) (st.m_event_queue.drop k)
           (run_events (chain_of st.m_slot_map) (st.m_event_queue.take k) st.world),
         calls := (st.calls ++ invocations (chain_of st.m_slot_map) (st.m_event_queue.take k))
           ++ invocations (chain_of st.m_slot_map) (st.m_event_queue.drop k) },
       .ok false) := by
  have h1 : respond k st =
      ({ m_slot_map := index_all st.m_slot_map (st.m_event_queue.take k),
         m_event_queue := st.m_event_queue.drop k,
         next_node := st.next_node,
         world := run_events (chain_of st.m_slot_map) (st.m_event_queue.take k) st.world,
         calls := st.calls ++ invocations (chain_of st.m_slot_map) (st.m_event_queue.take k) },
       .ok true) := by
    rw [respond_ok k st h, stop_count_limit k _ hk (Nat.le_of_lt hkn)]
    simp [hkn]
  refine ⟨h1, ?_⟩
  rw [h1]
  rw [respond_zero_ok]
  · simp only [chain_of_index_all]
  · simp only [chain_of_index_all]
    exact never_fails_drop _ _ k h

/-- C3 at the example: `respond(2)` on the queue `(X, 5)`, `(Y, 6)`, `(X, 7)`,
then `respond(0)`. -/
theorem respond_limit_then_drain_witness :
    0 < 2 ∧ 2 < demo_queued.m_event_queue.length ∧
    never_fails (chain_of demo_queued.m_slot_map) demo_queued.m_event_queue ∧
    (respond 2 demo_queued).1.m_event_queue = [(demo_signal.X, 7)] ∧
    (respond 2 demo_queued).1.world = [(1, 5), (2, 5)] ∧
    (respond 2 demo_queued).2 = .ok true ∧
    (respond 0 (respond 2 demo_queued).1).1.m_event_queue = [] ∧
    (respond 0 (respond 2 demo_queued).1).1.world = [(1, 5), (2, 5), (1, 7), (2, 7)] ∧
    (respond 0 (respond 2 demo_queued).1).2 = .ok false :=
  have h := respond_limit_then_drain demo_queued 2 (by decide) (by decide)
    demo_queued_never_fails
  ⟨by decide, by decide, demo_queued_never_fails,
    by rw [h.1]; rfl, by rw [h.1]; rfl, by rw [h.1],
    by rw [h.2], by rw [h.2]; rfl, by rw [h.2]⟩

/-- C4, the code at the queue `(X, 5)`, `(Y, 6)`, `(X, 7)`, where the claim
expects `purge_events(X)` to return with `(Y, 6)` queued: however many passes
the loop is given, it has not ended, called on the dispatcher or through a
handler. -/
theorem purge_events_spins (fuel : Nat) (h : handler T demo_signal) :
    purge_events demo_signal.X fuel demo_queued = none ∧
    h.purge_events demo_signal.X fuel demo_queued = none ∧
    demo_queued.m_event_queue.filter (fun event => decide (event.1 ≠ demo_signal.X)) =
      [(demo_signal.Y, 6)] := by
  have hspin : purge_events demo_signal.X fuel demo_queued = none := by
    cases fuel with
    | zero => rfl
    | succ n =>
      have hstep : purge_events demo_signal.X (n + 1) demo_queued =
          purge_events demo_signal.X n
            { demo_queued with m_event_queue := [(demo_signal.Y, 6), (demo_signal.X, 7)] } := rfl
      rw [hstep]
      exact purge_events_stuck _ _ (demo_signal.Y, 6) [(demo_signal.X, 7)] rfl (by decide) n
  exact ⟨hspin, hspin, by decide⟩

/-- C5: when the nodes of the chain of its signal are distinct and the slot id
is live, `disconnect` is defined and makes that chain the old chain with the
single node the id points at deleted; the other signals keep their lists, every
other slot id reads as before, the id itself reads as nothing, and the queue,
the world and the record of invocations are unchanged. -/
theorem disconnect_removes_one (slot_id : slot_id_type S) (st : state S A W E)
    (hd : ((chain_of st.m_slot_map slot_id.1).map (fun node => node.id)).Nodup)
    (hl : live st slot_id) :
    ∃ st1, disconnect slot_id st = some st1 ∧
      (∃ before node after,
        chain_of st.m_slot_map slot_id.1 = before ++ node :: after ∧
        node.id = slot_id.2 ∧
        st1.m_slot_map slot_id.1 = some (before ++ after)) ∧
      (∀ s, s ≠ slot_id.1 → st1.m_slot_map s = st.m_slot_map s) ∧
      (∀ other, other ≠ slot_id → slot_at st1 other = slot_at st other) ∧
      slot_at st1 slot_id = none ∧
      st1.m_event_queue = st.m_event_queue ∧
      st1.world = st.world ∧ st1.calls = st.calls ∧ st1.next_node = st.next_node := by
  refine ⟨_, disconnect_eq slot_id st hl, ?_, ?_, ?_, ?_, rfl, rfl, rfl, rfl⟩
  · obtain ⟨before, node, after, hc, hid, hf⟩ := filter_id_split _ _ hd hl
    exact ⟨before, node, after, hc, hid, by simp [hf]⟩
  · intro s hs
    simp [Function.update_noteq hs]
  · intro other hne
    unfold slot_at
    by_cases hs : other.1 = slot_id.1
    · have h2 : other.2 ≠ slot_id.2 := fun h2 => hne (Prod.ext hs h2)
      simp only [hs, chain_of_update_same]
      exact find_filter_other _ _ _ h2
    · simp only [chain_of_update_other _ _ _ _ hs]
  · unfold slot_at
    simp only [chain_of_update_same]
    exact find_filter_same _ _

/-- C5 at the example: the id of the first slot connected to `X`. -/
theorem disconnect_removes_one_witness :
    ((chain_of demo_queued.m_slot_map demo_signal.X).map (fun node => node.id)).Nodup ∧
    live demo_queued (demo_signal.X, 0) ∧
    ∃ st1, disconnect (demo_signal.X, 0) demo_queued = some st1 ∧
      (slot_at st1 (demo_signal.X, 1)).map (fun node => node.id) = some 1 ∧
      slot_at st1 (demo_signal.X, 0) = none ∧
      st1.m_event_queue = [(demo_signal.X, 5), (demo_signal.Y, 6), (demo_signal.X, 7)] := by
  have hd : ((chain_of demo_queued.m_slot_map demo_signal.X).map (fun node => node.id)).Nodup := by
    decide
  have hl : live demo_queued (demo_signal.X, 0) := by
    unfold live
    decide
  obtain ⟨st1, h1, _, _, hother, hself, hq, _⟩ :=
    disconnect_removes_one (demo_signal.X, 0) demo_queued hd hl
  refine ⟨hd, hl, st1, h1, ?_, hself, ?_⟩
  · rw [hother (demo_signal.X, 1) (by decide)]
    rfl
  · rw [hq]
    rfl

/-- C6: in the state built from the empty domain by any registrations
(`connect` and `connect_bind` of handler instances, direct `connect`), the
destructor of the instance `i` is defined; every list becomes the old list
without the nodes whose ids the instance recorded, the other nodes staying in
order; the slots that remain are, signal by signal and in order, the slots of
the registrations that were not made through `i`; the queue, the world and the
record of invocations are unchanged. -/
theorem destroy_removes_own_slots (selves : Nat → T) (w : W)
    (ops : List (registration S A W E T B)) (i : Nat) :
    ∃ st1 : state S A W E,
      ((built selves w ops).1 i).destroy (built selves w ops).2 = some st1 ∧
      (∀ s, chain_of st1.m_slot_map s =
        (chain_of (built selves w ops).2.m_slot_map s).filter
          (fun node => decide ((s, node.id) ∉ ((built selves w ops).1 i).m_slots))) ∧
      (∀ s, (chain_of st1.m_slot_map s).map (fun node => node.slot) =
        (chain_of (built selves w
            (ops.filter (fun op => decide (op.owner ≠ some i)))).2.m_slot_map s).map
          (fun node => node.slot)) ∧
      st1.m_event_queue = (built selves w ops).2.m_event_queue ∧
      st1.world = (built selves w ops).2.world ∧
      st1.calls = (built selves w ops).2.calls := by
  obtain ⟨hlive, _, hnd, _, hslots, _⟩ :=
    handles_inv_all i ops _ _ (handles_inv_init (S := S) (A := A) (E := E) i selves w)
  obtain ⟨st1, h1, hc, hq, hw, hcalls, _⟩ := destroy_spec _ _ hnd hlive
  refine ⟨st1, h1, hc, ?_, hq, hw, hcalls⟩
  intro s
  rw [hc s]
  exact hslots s

/-- C7: `push_event(signal, args)` is total; it makes the queue the old queue
with `(signal, args)` appended at the tail and changes nothing else: the slot
map, the world and the record of invocations are as before (no slot ran).  The
pass-through of the handler does the same. -/
theorem push_event_appends (signal : S) (args : A) (st : state S A W E) (h : handler T S) :
    (push_event signal args st).m_event_queue = st.m_event_queue ++ [(signal, args)] ∧
    (push_event signal args st).m_slot_map = st.m_slot_map ∧
    (push_event signal args st).world = st.world ∧
    (push_event signal args st).calls = st.calls ∧
    (push_event signal args st).next_node = st.next_node ∧
    h.push_event signal args st = push_event signal args st :=
  ⟨rfl, rfl, rfl, rfl, rfl, rfl⟩

/-- C8: `connect(signal, slot)` makes the chain of `signal` the old chain (empty
when the signal had none) with `slot` appended at the tail; the returned id has
`signal` as its signal and the identity of the new last node as its position,
and, when the nodes of the old chain are older than the next node, reading the
id gives that new node; the lists of the other signals, the queue, the world
and the record of invocations are unchanged (no slot ran). -/
theorem connect_appends (signal : S) (slot : slot_type A W E) (st : state S A W E) :
    (connect signal slot st).1.1 = signal ∧
    (connect signal slot st).2.m_slot_map signal =
      some (chain_of st.m_slot_map signal ++ [⟨(connect signal slot st).1.2, slot⟩]) ∧
    (∀ s, s ≠ signal → (connect signal slot st).2.m_slot_map s = st.m_slot_map s) ∧
    (connect signal slot st).2.m_event_queue = st.m_event_queue ∧
    (connect signal slot st).2.world = st.world ∧
    (connect signal slot st).2.calls = st.calls ∧
    ((∀ node ∈ chain_of st.m_slot_map signal, node.id < st.next_node) →
      slot_at (connect signal slot st).2 (connect signal slot st).1 =
        some ⟨(connect signal slot st).1.2, slot⟩) := by
  unfold connect
  rw [emplace_back_slot_eq]
  refine ⟨rfl, by simp, ?_, rfl, rfl, rfl, ?_⟩
  · intro s hs
    simp [Function.update_noteq hs]
  · intro hold
    unfold slot_at
    simp only [chain_of_update_same]
    rw [List.find?_append]
    have hnone : (chain_of st.m_slot_map signal).find? (fun node => node.id == st.next_node) = none := by
      rw [List.find?_eq_none]
      intro x hx
      have := hold x hx
      simp
      omega
    rw [hnone]
    simp

/-- C8 at the example: a third slot connected to `X`. -/
theorem connect_appends_witness :
    (∀ node ∈ chain_of demo_queued.m_slot_map demo_signal.X, node.id < demo_queued.next_node) ∧
    (connect demo_signal.X (demo_slot 3) demo_queued).1 = (demo_signal.X, 2) ∧
    (slot_at (connect demo_signal.X (demo_slot 3) demo_queued).2
      (connect demo_signal.X (demo_slot 3) demo_queued).1).map (fun node => node.id) = some 2 := by
  have hold : ∀ node ∈ chain_of demo_queued.m_slot_map demo_signal.X,
      node.id < demo_queued.next_node := by
    intro node hn
    have hX : chain_of demo_queued.m_slot_map demo_signal.X =
        [⟨0, demo_slot 1⟩, ⟨1, demo_slot 2⟩] := rfl
    rw [hX] at hn
    simp only [List.mem_cons, List.mem_singleton, List.not_mem_nil, or_false] at hn
    rcases hn with rfl | rfl <;> decide
  refine ⟨hold, rfl, ?_⟩
  rw [(connect_appends demo_signal.X (demo_slot 3) demo_queued).2.2.2.2.2.2 hold]
  rfl

/-- C9: on an empty queue `respond(limit)` returns false for every `limit` and
leaves the whole state as it was: slot map, queue, world and the record of
invocations. -/
theorem respond_empty_queue (limit : Nat) (st : state S A W E)
    (h : st.m_event_queue = []) : respond limit st = (st, .ok false) := by
  unfold respond
  simp [h]

/-- C9 at the example: the empty domain, limits 0 and 3. -/
theorem respond_empty_queue_witness :
    (state.init [] : demo_state).m_event_queue = [] ∧
    respond 0 (state.init [] : demo_state) = (state.init [], .ok false) ∧
    respond 3 (state.init [] : demo_state) = (state.init [], .ok false) :=
  ⟨rfl, respond_empty_queue 0 _ rfl, respond_empty_queue 3 _ rfl⟩

/-- C10, the code: whatever member `m`, object `target` and bound argument `b`
are handed to `connect_bind_member`, directly or through
`handler::connect_bind`, the slot it stores is the read of dead storage, and
firing it for the event `(signal, args)` does what that read does, not
`m(b, args)` on `target` as the claim has it.  At the example, with the member
that writes `(bound, argument)` bound to 7 and the event `(X, 5)`: the claim
expects `(7, 5)` to be written; with a firing that stops the run, nothing is
written and `respond` does not return. -/
theorem bound_member_fires_dead_storage (signal : S) (target : T)
    (m : T → B → A → W → W × Option E) (b : B) (dangling : slot_type A W E) (args : A)
    (w : W) (h : handler T S) :
    ((connect_bind_member signal target m b dangling (state.init w : state S A W E)).2.m_slot_map
        signal = some [⟨0, dangling⟩] ∧
      (respond 0 (push_event signal args
        (connect_bind_member signal target m b dangling
          (state.init w : state S A W E)).2)).1.world = (dangling args w).1 ∧
      (respond 0 (push_event signal args
        (connect_bind_member signal target m b dangling
          (state.init w : state S A W E)).2)).2 =
        (match (dangling args w).2 with
          | none => .ok false
          | some e => .error e)) ∧
    (h.connect_bind signal m b dangling (state.init w : state S A W E)).2.2 =
      (connect_bind_member signal h.self m b dangling (state.init w : state S A W E)).2 ∧
    ((respond 0 (push_event demo_signal.X 5
        ((⟨(), []⟩ : handler Unit demo_signal).connect_bind demo_signal.X demo_member 7
          demo_crash (state.init [] : demo_state)).2.2)).1.world = [] ∧
      (respond 0 (push_event demo_signal.X 5
        ((⟨(), []⟩ : handler Unit demo_signal).connect_bind demo_signal.X demo_member 7
          demo_crash (state.init [] : demo_state)).2.2)).2 = .error () ∧
      (demo_member () 7 5 []).1 = [(7, 5)]) :=
  ⟨respond_fired_alone signal dangling args w, rfl, rfl, rfl, rfl⟩

/-- C11: the queue is `first ++ event :: later` and the limit does not stop
`respond` within `first`; run in order, the slots called for by `first` and
then the slots `before` of the chain `before ++ node :: after` of `event` all
return, each at the world it is reached in, and `node`, at the world it is
reached in, raises `e`.  Then `respond` raises `e`; the events of `first` are
gone from the queue; the record of invocations ends with the call of `node`,
so no slot of `after` ran and no event of `later` was processed.  And every
call of `respond` that raises an error is of this kind. -/
theorem respond_propagates_failure (limit : Nat) (first later : event_queue_type S A)
    (event : event_type S A) (before after : slot_list_type A W E) (node : slot_node A W E)
    (e : E) (st : state S A W E)
    (hq : st.m_event_queue = first ++ event :: later)
    (hlim : limit = 0 ∨ first.length < limit)
    (hfirst : events_succeed (chain_of st.m_slot_map) first st.world)
    (hchain : chain_of st.m_slot_map event.1 = before ++ node :: after)
    (hb : chain_succeeds event.2 before (run_events (chain_of st.m_slot_map) first st.world))
    (hf : (node.slot event.2 (run_chain event.2 before
      (run_events (chain_of st.m_slot_map) first st.world))).2 = some e) :
    respond limit st =
      ({ m_slot_map := index_all st.m_slot_map (first ++ [event]),
         m_event_queue := event :: later,
         next_node := st.next_node,
         world := (node.slot event.2 (run_chain event.2 before
           (run_events (chain_of st.m_slot_map) first st.world))).1,
         calls := st.calls ++ invocations (chain_of st.m_slot_map) first ++
           (before ++ [node]).map (fun n => (n, event.2)) }, .error e) ∧
    ∀ (st2 : state S A W E) (limit2 : Nat) (e2 : E), (respond limit2 st2).2 = .error e2 →
      ∃ first2 event2 later2 before2 node2 after2,
        st2.m_event_queue = first2 ++ event2 :: later2 ∧
        chain_of st2.m_slot_map event2.1 = before2 ++ node2 :: after2 ∧
        respond limit2 st2 =
          ({ m_slot_map := index_all st2.m_slot_map (first2 ++ [event2]),
             m_event_queue := event2 :: later2,
             next_node := st2.next_node,
             world := (node2.slot event2.2 (run_chain event2.2 before2
               (run_events (chain_of st2.m_slot_map) first2 st2.world))).1,
             calls := st2.calls ++ invocations (chain_of st2.m_slot_map) first2 ++
               (before2 ++ [node2]).map (fun n => (n, event2.2)) }, .error e2) := by
  refine ⟨respond_fails limit first later event before after node e st hq hlim hfirst hchain
    hb hf, ?_⟩
  intro st2 limit2 e2 herr
  obtain ⟨first2, event2, later2, before2, node2, after2, hq2, hlim2, hfirst2, hchain2, hb2,
    hf2⟩ := respond_error limit2 st2 e2 herr
  exact ⟨first2, event2, later2, before2, node2, after2, hq2, hchain2,
    respond_fails limit2 first2 later2 event2 before2 after2 node2 e2 st2 hq2 hlim2 hfirst2
      hchain2 hb2 hf2⟩

/-- C11 at the example: slot 1 and the guarded slot 9 on `X`, nodes 0 and 1;
queue `(X, 1)`, `(X, 2)`, `(X, 3)`.  The guarded slot returns for the first two
events and raises for the third, although it is able to fail on the first
two in another world. -/
theorem respond_propagates_failure_witness :
    demo_guarded.m_event_queue =
      [(demo_signal.X, 1), (demo_signal.X, 2)] ++ (demo_signal.X, 3) :: [] ∧
    ((0 : Nat) = 0 ∨ [(demo_signal.X, 1), (demo_signal.X, 2)].length < 0) ∧
    events_succeed (chain_of demo_guarded.m_slot_map)
      [(demo_signal.X, 1), (demo_signal.X, 2)] demo_guarded.world ∧
    ¬ never_fails (chain_of demo_guarded.m_slot_map)
      [(demo_signal.X, 1), (demo_signal.X, 2)] ∧
    chain_of demo_guarded.m_slot_map (demo_signal.X, 3).1 =
      [⟨0, demo_slot 1⟩] ++ ⟨1, demo_guarded_slot 9 5⟩ :: [] ∧
    (respond 0 demo_guarded).2 = .error () ∧
    (respond 0 demo_guarded).1.m_event_queue = [(demo_signal.X, 3)] ∧
    (respond 0 demo_guarded).1.calls.map (fun c => (c.1.id, c.2)) =
      [(0, 1), (1, 1), (0, 2), (1, 2), (0, 3), (1, 3)] ∧
    (respond 0 demo_guarded).1.world = [(1, 1), (9, 1), (1, 2), (9, 2), (1, 3), (9, 3)] := by
  have h := (respond_propagates_failure 0 [(demo_signal.X, 1), (demo_signal.X, 2)] []
    (demo_signal.X, 3) [⟨0, demo_slot 1⟩] [] ⟨1, demo_guarded_slot 9 5⟩ ()
    demo_guarded rfl (Or.inl rfl) demo_guarded_first rfl demo_guarded_before rfl).1
  refine ⟨rfl, Or.inl rfl, demo_guarded_first, demo_guarded_can_fail, rfl, ?_, ?_, ?_, ?_⟩ <;>
    rw [h] <;> rfl

/-- C12: scenario C for every slot, signal and arguments, from the empty
domain: the sequence `connect`, `push_event`, `disconnect`, `push_event`,
`respond()` is defined, `respond` returns false, no slot was invoked (the
record of invocations is empty and the world is as it was), and the queue is
empty. -/
theorem scenario_C_invokes_nothing (signal : S) (slot : slot_type A W E) (a1 a2 : A) (w : W) :
    ∃ st, scenario_C signal slot a1 a2 w = some (st, .ok false) ∧
      st.calls = [] ∧ st.world = w ∧ st.m_event_queue = [] ∧
      ∀ s, chain_of st.m_slot_map s = [] := by
  have hconnect : connect signal slot (state.init w : state S A W E) =
      ((signal, 0),
       { m_slot_map := Function.update (fun _ => none) signal (some [⟨0, slot⟩]),
         m_event_queue := [], next_node := 1, world := w, calls := [] }) := by
    unfold connect
    rw [emplace_back_slot_eq]
    rfl
  have hlive : live (push_event signal a1
      ({ m_slot_map := Function.update (fun _ => none) signal (some [⟨0, slot⟩]),
         m_event_queue := [], next_node := 1, world := w, calls := [] } : state S A W E))
      (signal, 0) := by
    unfold live push_event
    simp [chain_of_update_same]
  have hempty : ∀ s, chain_of
      (Function.update
        (Function.update (fun _ => none : slot_map_type S A W E) signal (some [⟨0, slot⟩]))
        signal (some [])) s = [] := by
    intro s
    by_cases hs : s = signal
    · subst hs
      exact chain_of_update_same _ _ _
    · rw [chain_of_update_other _ _ _ _ hs, chain_of_update_other _ _ _ _ hs]
      rfl
  have hdisconnect : disconnect (signal, 0) (push_event signal a1
      ({ m_slot_map := Function.update (fun _ => none) signal (some [⟨0, slot⟩]),
         m_event_queue := [], next_node := 1, world := w, calls := [] } : state S A W E)) =
      some
        { m_slot_map :=
            Function.update
              (Function.update (fun _ => none) signal (some [⟨0, slot⟩])) signal (some []),
          m_event_queue := [(signal, a1)], next_node := 1, world := w, calls := [] } := by
    rw [disconnect_eq _ _ hlive]
    simp [push_event, chain_of_update_same]
  unfold scenario_C
  rw [hconnect]
  simp only
  rw [hdisconnect, Option.map_some', respond_zero_without_slots]
  · refine ⟨_, rfl, rfl, rfl, rfl, ?_⟩
    intro s
    simp only [chain_of_index_all]
    exact hempty s
  · intro event _
    exact hempty event.1

/-- Scenario C at the example, evaluated: slot 1 on `X`, arguments 1 and 2. -/
theorem scenario_C_example :
    (scenario_C demo_signal.X (demo_slot 1) 1 2 ([] : List (Nat × Nat))).map
      (fun r => (r.1.calls.length, r.1.world, r.1.m_event_queue, r.2)) =
      some (0, [], [], .ok false) := by
  rfl

/-- C13: for a queue of `n >= 1` events whose slots do not fail, after `j <= n`
calls of `respond(1)` exactly the first `j` events have been processed, in
order, and the queue holds the others, so the `j`-th call processes the `j`-th
event and nothing else; the call number `i + 1` returns true exactly when
`i + 1 < n`: the first `n - 1` calls return true and the `n`-th returns false,
with the queue empty. -/
theorem respond_one_per_call (st : state S A W E)
    (hn : 1 ≤ st.m_event_queue.length)
    (h : never_fails (chain_of st.m_slot_map) st.m_event_queue) :
    (∀ j, j ≤ st.m_event_queue.length →
      respond_repeat 1 j st =
        ({ m_slot_map := index_all st.m_slot_map (st.m_event_queue.take j),
           m_event_queue := st.m_event_queue.drop j,
           next_node := st.next_node,
           world := run_events (chain_of st.m_slot_map) (st.m_event_queue.take j) st.world,
           calls := st.calls ++ invocations (chain_of st.m_slot_map) (st.m_event_queue.take j) },
         (List.range j).map (fun i => .ok (decide (i + 1 < st.m_event_queue.length))))) ∧
    (respond_repeat 1 st.m_event_queue.length st).2 =
      List.replicate (st.m_event_queue.length - 1) (.ok true) ++ [.ok false] ∧
    (respond_repeat 1 st.m_event_queue.length st).1.m_event_queue = [] := by
  have hall := fun j (hj : j ≤ st.m_event_queue.length) =>
    respond_repeat_one_ok j st.m_event_queue st rfl hj h
  refine ⟨hall, ?_, ?_⟩
  · rw [hall _ (Nat.le_refl _)]
    exact range_results _ hn
  · rw [hall _ (Nat.le_refl _)]
    simp

/-- C13 at scenario D, with slots 1 and 2 on `X` and the queue `(X, 5)`,
`(Y, 6)`, `(X, 7)`: three calls of `respond(1)`. -/
theorem respond_one_per_call_witness :
    1 ≤ demo_queued.m_event_queue.length ∧
    never_fails (chain_of demo_queued.m_slot_map) demo_queued.m_event_queue ∧
    (respond_repeat 1 1 demo_queued).1.world = [(1, 5), (2, 5)] ∧
    (respond_repeat 1 2 demo_queued).1.world = [(1, 5), (2, 5)] ∧
    (respond_repeat 1 3 demo_queued).1.world = [(1, 5), (2, 5), (1, 7), (2, 7)] ∧
    (respond_repeat 1 3 demo_queued).2 = [.ok true, .ok true, .ok false] ∧
    (respond_repeat 1 3 demo_queued).1.m_event_queue = [] := by
  have h := respond_one_per_call demo_queued (by decide) demo_queued_never_fails
  refine ⟨by decide, demo_queued_never_fails, ?_, ?_, ?_, h.2.1, h.2.2⟩
  · rw [h.1 1 (by decide)]
    rfl
  · rw [h.1 2 (by decide)]
    rfl
  · rw [h.1 3 (by decide)]
    rfl

/-- C14: when no queued event has a slot on its signal (no list, or an empty
one), `respond()` returns false, raises nothing, empties the queue and invokes
no slot: the world and the record of invocations are as before; the slot map
only receives an empty list for the signals that had none. -/
theorem respond_without_slots (st : state S A W E)
    (h : ∀ event ∈ st.m_event_queue, chain_of st.m_slot_map event.1 = []) :
    respond 0 st =
      ({ st with
         m_slot_map := index_all st.m_slot_map st.m_event_queue,
         m_event_queue := [] }, .ok false) ∧
    ∀ s, chain_of (index_all st.m_slot_map st.m_event_queue) s = chain_of st.m_slot_map s :=
  ⟨respond_zero_without_slots st h, fun s => by rw [chain_of_index_all]⟩

/-- C14 at scenario B: `(X, 1)`, `(Y, 2)`, `(X, 3)` pushed with no slot
connected. -/
theorem respond_without_slots_witness :
    (∀ event ∈ demo_unconnected.m_event_queue,
      chain_of demo_unconnected.m_slot_map event.1 = []) ∧
    demo_unconnected.m_event_queue = [(demo_signal.X, 1), (demo_signal.Y, 2), (demo_signal.X, 3)] ∧
    (respond 0 demo_unconnected).2 = .ok false ∧
    (respond 0 demo_unconnected).1.m_event_queue = [] ∧
    (respond 0 demo_unconnected).1.calls = [] ∧
    (respond 0 demo_unconnected).1.world = [] := by
  have h0 : ∀ event ∈ demo_unconnected.m_event_queue,
      chain_of demo_unconnected.m_slot_map event.1 = [] := fun _ _ => rfl
  have h := (respond_without_slots demo_unconnected h0).1
  refine ⟨h0, rfl, ?_, ?_, ?_, ?_⟩ <;> rw [h] <;> rfl

/-- C15: for a queue of `n >= 1` events whose slots do not fail and every
`limit >= n`, `limit = n` included, `respond(limit)` processes all `n` events
in queue order, leaves the queue empty and returns false.  And for every state
and limit, failing slots or not, when `respond` returns a boolean it is true
exactly when the queue it leaves is not empty. -/
theorem respond_limit_covers_queue (st : state S A W E) (limit : Nat)
    (hn : 1 ≤ st.m_event_queue.length) (hl : st.m_event_queue.length ≤ limit)
    (h : never_fails (chain_of st.m_slot_map) st.m_event_queue) :
    respond limit st =
      ({ m_slot_map := index_all st.m_slot_map st.m_event_queue,
         m_event_queue := [],
         next_node := st.next_node,
         world := run_events (chain_of st.m_slot_map) st.m_event_queue st.world,
         calls := st.calls ++ invocations (chain_of st.m_slot_map) st.m_event_queue },
       .ok false) ∧
    ∀ (st2 : state S A W E) (limit2 : Nat) (b : Bool),
      (respond limit2 st2).2 = .ok b →
        (b = true ↔ (respond limit2 st2).1.m_event_queue ≠ []) := by
  constructor
  · have hs : stop_count limit 0 st.m_event_queue.length = st.m_event_queue.length := by
      unfold stop_count
      split_ifs <;> omega
    rw [respond_ok limit st h, hs]
    simp
  · intro st2 limit2 b hb
    unfold respond at hb ⊢
    by_cases hq : st2.m_event_queue.length = 0
    · rw [if_pos hq] at hb ⊢
      simp only [Except.ok.injEq] at hb
      subst hb
      simp [List.length_eq_zero.1 hq]
    · rw [if_neg hq] at hb ⊢
      rcases hloop : respond_loop limit2 st2.m_event_queue 0 st2 with ⟨st1, err⟩
      rw [hloop] at hb
      cases err with
      | some e => simp at hb
      | none =>
        simp only [Except.ok.injEq] at hb
        subst hb
        simp [List.length_pos]

/-- C15 at the example: limits 3 and 4 on the queue of three events, and the
limit 2, which leaves one event and returns true. -/
theorem respond_limit_covers_queue_witness :
    1 ≤ demo_queued.m_event_queue.length ∧ demo_queued.m_event_queue.length ≤ 3 ∧
    never_fails (chain_of demo_queued.m_slot_map) demo_queued.m_event_queue ∧
    (respond 3 demo_queued).2 = .ok false ∧
    (respond 3 demo_queued).1.m_event_queue = [] ∧
    (respond 3 demo_queued).1.world = [(1, 5), (2, 5), (1, 7), (2, 7)] ∧
    (respond 4 demo_queued).2 = .ok false ∧
    (respond 2 demo_queued).2 = .ok true ∧
    (respond 2 demo_queued).1.m_event_queue ≠ [] := by
  have h3 := (respond_limit_covers_queue demo_queued 3 (by decide) (by decide)
    demo_queued_never_fails).1
  have h4 := (respond_limit_covers_queue demo_queued 4 (by decide) (by decide)
    demo_queued_never_fails).1
  have hgen := (respond_limit_covers_queue demo_queued 3 (by decide) (by decide)
    demo_queued_never_fails).2 demo_queued 2 true rfl
  refine ⟨by decide, by decide, demo_queued_never_fails, ?_, ?_, ?_, ?_, rfl, hgen.1 rfl⟩
  · rw [h3]
  · rw [h3]
  · rw [h3]
    rfl
  · rw [h4]

/-- C16: the loop of `purge_events(signal)` removes nothing but events of
`signal` at the head: after any number of passes the state is the old one with
some leading events, all of `signal`, dropped from the queue.  The loop ends
exactly when every queued event has `signal`, and then the queue is empty.
When some queued event has another signal, the loop never ends: once the
leading run of events of `signal` is gone the queue stays as it is, with an
event of another signal at its head. -/
theorem purge_events_head_only (signal : S) (st : state S A W E) :
    (∀ n, ∃ j,
      purge_events_run signal n st = { st with m_event_queue := st.m_event_queue.drop j } ∧
      ∀ event ∈ st.m_event_queue.take j, event.1 = signal) ∧
    ((∃ fuel st1, purge_events signal fuel st = some st1) ↔
      ∀ event ∈ st.m_event_queue, event.1 = signal) ∧
    (∀ fuel st1, purge_events signal fuel st = some st1 →
      st1 = { st with m_event_queue := [] }) ∧
    ((∃ event ∈ st.m_event_queue, event.1 ≠ signal) →
      (∀ fuel, purge_events signal fuel st = none) ∧
      (∀ n, (st.m_event_queue.takeWhile (fun ev => decide (ev.1 = signal))).length ≤ n →
        (purge_events_run signal n st).m_event_queue =
          st.m_event_queue.dropWhile (fun ev => decide (ev.1 = signal))) ∧
      ∃ event rest,
        st.m_event_queue.dropWhile (fun ev => decide (ev.1 = signal)) = event :: rest ∧
        event.1 ≠ signal) := by
  refine ⟨?_, ⟨?_, ?_⟩, ?_, ?_⟩
  · intro n
    exact ⟨_, purge_events_run_eq signal n st.m_event_queue st rfl,
      take_leading_run signal _ _ (Nat.min_le_right _ _)⟩
  · rintro ⟨fuel, st1, h⟩
    exact (purge_events_some signal fuel st st1 h).1
  · intro hall
    exact ⟨_, _, purge_events_all_match signal st.m_event_queue st rfl hall⟩
  · intro fuel st1 h
    exact (purge_events_some signal fuel st st1 h).2
  · rintro ⟨event, he, hne⟩
    refine ⟨?_, ?_, dropWhile_head_differs signal _ ⟨event, he, hne⟩⟩
    · intro fuel
      cases hp : purge_events signal fuel st with
      | none => rfl
      | some st1 => exact absurd ((purge_events_some signal fuel st st1 hp).1 event he) hne
    · intro n hn
      rw [purge_events_run_eq signal n st.m_event_queue st rfl]
      simp only [Nat.min_eq_right hn]
      exact drop_leading_run signal _

/-- C16 at the example: `purge_events(X)` on `(X, 5)`, `(Y, 6)`, `(X, 7)`
removes `(X, 5)` and then stays at `(Y, 6)`, `(X, 7)` without ending. -/
theorem purge_events_head_only_witness :
    (∃ event ∈ demo_queued.m_event_queue, event.1 ≠ demo_signal.X) ∧
    (∀ fuel, purge_events demo_signal.X fuel demo_queued = none) ∧
    (∀ n, 1 ≤ n → (purge_events_run demo_signal.X n demo_queued).m_event_queue =
      [(demo_signal.Y, 6), (demo_signal.X, 7)]) := by
  have hex : ∃ event ∈ demo_queued.m_event_queue, event.1 ≠ demo_signal.X :=
    ⟨(demo_signal.Y, 6), by decide, by decide⟩
  obtain ⟨hnone, hrun, _⟩ := (purge_events_head_only demo_signal.X demo_queued).2.2.2 hex
  exact ⟨hex, hnone, fun n hn => hrun n hn⟩

/-- C17: for slot ids that are pairwise distinct and live, the state after
disconnecting all of them is the same in whatever order they are taken: two
handlers that recorded the same ids in different orders leave the same state
when destroyed, namely the old one with every list stripped of the nodes the
ids point at; and for two distinct live ids, `disconnect(a); disconnect(b)`
gives what `disconnect(b); disconnect(a)` gives. -/
theorem disconnect_order_irrelevant (st : state S A W E) (h1 h2 : handler T S)
    (hp : h1.m_slots.Perm h2.m_slots) (hd : h1.m_slots.Nodup)
    (hl : ∀ slot_id ∈ h1.m_slots, live st slot_id) :
    h1.destroy st = h2.destroy st ∧
    h1.destroy st =
      some { st with
        m_slot_map := fun s =>
          (st.m_slot_map s).map
            (List.filter (fun node => decide ((s, node.id) ∉ h1.m_slots))) } ∧
    ∀ a b : slot_id_type S, a ≠ b → live st a → live st b →
      (disconnect a st).bind (disconnect b) = (disconnect b st).bind (disconnect a) ∧
      ∃ st1, (disconnect a st).bind (disconnect b) = some st1 := by
  refine ⟨destroy_perm _ _ st hp hd hl, destroy_map _ st hd hl, ?_⟩
  intro a b hab ha hb
  have hnd : [a, b].Nodup := by simp [hab]
  have hlive : ∀ h ∈ [a, b], live st h := by
    intro h hm
    rw [List.mem_cons, List.mem_singleton] at hm
    rcases hm with rfl | rfl
    · exact ha
    · exact hb
  have hswap := destroy_perm [a, b] [b, a] st (List.Perm.swap b a []) hnd hlive
  rw [foldlM_pair, foldlM_pair] at hswap
  refine ⟨hswap, ?_⟩
  rw [← foldlM_pair, destroy_map _ st hnd hlive]
  exact ⟨_, rfl⟩

/-- C17 at the example: the ids of the two slots on `X`, recorded in either
order. -/
theorem disconnect_order_irrelevant_witness :
    ([(demo_signal.X, 0), (demo_signal.X, 1)] : List (slot_id_type demo_signal)).Perm
      [(demo_signal.X, 1), (demo_signal.X, 0)] ∧
    ([(demo_signal.X, 0), (demo_signal.X, 1)] : List (slot_id_type demo_signal)).Nodup ∧
    (∀ slot_id ∈ [(demo_signal.X, 0), (demo_signal.X, 1)], live demo_queued slot_id) ∧
    (⟨(), [(demo_signal.X, 0), (demo_signal.X, 1)]⟩ : handler Unit demo_signal).destroy demo_queued =
      (⟨(), [(demo_signal.X, 1), (demo_signal.X, 0)]⟩ : handler Unit demo_signal).destroy demo_queued ∧
    ((⟨(), [(demo_signal.X, 0), (demo_signal.X, 1)]⟩ : handler Unit demo_signal).destroy
      demo_queued).map (fun st => (chain_of st.m_slot_map demo_signal.X).map (fun node => node.id)) =
      some [] := by
  have hp : ([(demo_signal.X, 0), (demo_signal.X, 1)] : List (slot_id_type demo_signal)).Perm
      [(demo_signal.X, 1), (demo_signal.X, 0)] := List.Perm.swap _ _ []
  have hd : ([(demo_signal.X, 0), (demo_signal.X, 1)] : List (slot_id_type demo_signal)).Nodup := by
    decide
  have hl : ∀ slot_id ∈ [(demo_signal.X, 0), (demo_signal.X, 1)], live demo_queued slot_id := by
    intro slot_id hm
    rw [List.mem_cons, List.mem_singleton] at hm
    rcases hm with rfl | rfl <;> (unfold live; decide)
  exact ⟨hp, hd, hl,
    (disconnect_order_irrelevant demo_queued
      (⟨(), [(demo_signal.X, 0), (demo_signal.X, 1)]⟩ : handler Unit demo_signal)
      (⟨(), [(demo_signal.X, 1), (demo_signal.X, 0)]⟩ : handler Unit demo_signal) hp hd hl).1,
    rfl⟩

/-- C18: when the nodes of the chain of `signal` are older than the next node,
`disconnect(connect(signal, slot))` is defined and restores every chain (an
absent list read as empty); the queue, the world and the record of
invocations are as before.  Whatever events are pushed afterwards, a later
`respond` returns or raises the same, makes the same invocations and leaves
the same world, queue and chains as if the connect had never happened. -/
theorem connect_disconnect_round_trip (signal : S) (slot : slot_type A W E)
    (st : state S A W E)
    (hfresh : ∀ node ∈ chain_of st.m_slot_map signal, node.id < st.next_node) :
    ∃ st2, disconnect (connect signal slot st).1 (connect signal slot st).2 = some st2 ∧
      (∀ s, chain_of st2.m_slot_map s = chain_of st.m_slot_map s) ∧
      st2.m_event_queue = st.m_event_queue ∧ st2.world = st.world ∧ st2.calls = st.calls ∧
      ∀ (events : event_queue_type S A) (limit : Nat),
        (respond limit (push_all events st2)).2 = (respond limit (push_all events st)).2 ∧
        (respond limit (push_all events st2)).1.calls =
          (respond limit (push_all events st)).1.calls ∧
        (respond limit (push_all events st2)).1.world =
          (respond limit (push_all events st)).1.world ∧
        (respond limit (push_all events st2)).1.m_event_queue =
          (respond limit (push_all events st)).1.m_event_queue ∧
        ∀ s, chain_of (respond limit (push_all events st2)).1.m_slot_map s =
          chain_of (respond limit (push_all events st)).1.m_slot_map s := by
  refine ⟨_, connect_disconnect_eq signal slot st hfresh, ?_, rfl, rfl, rfl, ?_⟩
  · intro s
    exact congrFun (chain_of_update_self st.m_slot_map signal) s
  · intro events limit
    have hview : same_view
        ({ st with
           m_slot_map :=
             Function.update st.m_slot_map signal (some (chain_of st.m_slot_map signal)),
           next_node := st.next_node + 1 } : state S A W E) st :=
      ⟨chain_of_update_self st.m_slot_map signal, rfl, rfl, rfl⟩
    obtain ⟨hv, hr⟩ := respond_same_view limit _ _ (same_view_push_all events _ _ hview)
    exact ⟨hr, hv.2.2.2, hv.2.2.1, hv.2.1, fun s => congrFun hv.1 s⟩

/-- C18 at the example: a third slot connected to `X` and disconnected again;
`respond()` then runs slots 1 and 2 only. -/
theorem connect_disconnect_round_trip_witness :
    (∀ node ∈ chain_of demo_queued.m_slot_map demo_signal.X,
      node.id < demo_queued.next_node) ∧
    ∃ st2, disconnect (connect demo_signal.X (demo_slot 3) demo_queued).1
        (connect demo_signal.X (demo_slot 3) demo_queued).2 = some st2 ∧
      (chain_of st2.m_slot_map demo_signal.X).map (fun node => node.id) = [0, 1] ∧
      (respond 0 st2).1.world = [(1, 5), (2, 5), (1, 7), (2, 7)] := by
  obtain ⟨st2, h1, hc, _, _, _, hr⟩ :=
    connect_disconnect_round_trip demo_signal.X (demo_slot 3) demo_queued demo_queued_fresh
  refine ⟨demo_queued_fresh, st2, h1, ?_, ?_⟩
  · rw [hc]
    rfl
  · have h := (hr [] 0).2.2.1
    rw [show push_all [] st2 = st2 from rfl, show push_all [] demo_queued = demo_queued from rfl] at h
    rw [h]
    rfl

/-- C19: under the conditions of a failure of `node` while `event` is processed
(queue `first ++ event :: later`; the slots called for by `first` and the
slots `before` return and `node` raises `e`, each at the world it is reached
in), the queue after the failing `respond` is `event :: later`: the event
whose slot failed is still at the front.  When the slots of `before` return
again in the world the failure left, the next `respond`, whatever its limit,
starts by invoking the slots of `before` and `node` again with the arguments
of `event`.  And after every call of `respond` that raises an error, the event
of the last invocation made is at the front of the queue. -/
theorem failed_event_stays_queued (limit : Nat) (first later : event_queue_type S A)
    (event : event_type S A) (before after : slot_list_type A W E) (node : slot_node A W E)
    (e : E) (st : state S A W E)
    (hq : st.m_event_queue = first ++ event :: later)
    (hlim : limit = 0 ∨ first.length < limit)
    (hfirst : events_succeed (chain_of st.m_slot_map) first st.world)
    (hchain : chain_of st.m_slot_map event.1 = before ++ node :: after)
    (hb : chain_succeeds event.2 before (run_events (chain_of st.m_slot_map) first st.world))
    (hf : (node.slot event.2 (run_chain event.2 before
      (run_events (chain_of st.m_slot_map) first st.world))).2 = some e) :
    (respond limit st).2 = .error e ∧
    (respond limit st).1.m_event_queue = event :: later ∧
    (respond limit st).1.calls = st.calls ++ invocations (chain_of st.m_slot_map) first ++
      (before ++ [node]).map (fun n => (n, event.2)) ∧
    (chain_succeeds event.2 before (respond limit st).1.world →
      ∀ limit2, ∃ rest, (respond limit2 (respond limit st).1).1.calls =
        (respond limit st).1.calls ++ (before ++ [node]).map (fun n => (n, event.2)) ++ rest) ∧
    ∀ (st2 : state S A W E) (limit2 : Nat) (e2 : E), (respond limit2 st2).2 = .error e2 →
      ∃ first2 event2 later2 node2,
        st2.m_event_queue = first2 ++ event2 :: later2 ∧
        (respond limit2 st2).1.m_event_queue = event2 :: later2 ∧
        node2 ∈ chain_of st2.m_slot_map event2.1 ∧
        (respond limit2 st2).1.calls.getLast? = some (node2, event2.2) := by
  have h := respond_fails limit first later event before after node e st hq hlim hfirst
    hchain hb hf
  refine ⟨by rw [h], by rw [h], by rw [h], ?_, ?_⟩
  · intro hagain limit2
    apply respond_begins limit2 event later before after node
    · rw [h]
    · rw [h]
      simp only [chain_of_index_all]
      exact hchain
    · exact hagain
  · intro st2 limit2 e2 herr
    obtain ⟨first2, event2, later2, before2, node2, after2, hq2, hlim2, hfirst2, hchain2, hb2,
      hf2⟩ := respond_error limit2 st2 e2 herr
    have h2 := respond_fails limit2 first2 later2 event2 before2 after2 node2 e2 st2 hq2 hlim2
      hfirst2 hchain2 hb2 hf2
    refine ⟨first2, event2, later2, node2, hq2, by rw [h2], ?_, ?_⟩
    · rw [hchain2]
      simp
    · rw [h2]
      simp only [List.map_append, List.map_cons, List.map_nil, ← List.append_assoc]
      exact List.getLast?_concat _

/-- C19 at the example of C11: after the failure `(X, 3)` is still queued, and
a second `respond()` calls the nodes 0 and 1 on 3 again. -/
theorem failed_event_stays_queued_witness :
    demo_guarded.m_event_queue =
      [(demo_signal.X, 1), (demo_signal.X, 2)] ++ (demo_signal.X, 3) :: [] ∧
    ((0 : Nat) = 0 ∨ [(demo_signal.X, 1), (demo_signal.X, 2)].length < 0) ∧
    events_succeed (chain_of demo_guarded.m_slot_map)
      [(demo_signal.X, 1), (demo_signal.X, 2)] demo_guarded.world ∧
    chain_of demo_guarded.m_slot_map (demo_signal.X, 3).1 =
      [⟨0, demo_slot 1⟩] ++ ⟨1, demo_guarded_slot 9 5⟩ :: [] ∧
    (respond 0 demo_guarded).1.m_event_queue = [(demo_signal.X, 3)] ∧
    (respond 0 (respond 0 demo_guarded).1).1.calls.map (fun c => (c.1.id, c.2)) =
      [(0, 1), (1, 1), (0, 2), (1, 2), (0, 3), (1, 3), (0, 3), (1, 3)] ∧
    (respond 0 (respond 0 demo_guarded).1).1.m_event_queue = [(demo_signal.X, 3)] := by
  have h := failed_event_stays_queued 0 [(demo_signal.X, 1), (demo_signal.X, 2)] []
    (demo_signal.X, 3) [⟨0, demo_slot 1⟩] [] ⟨1, demo_guarded_slot 9 5⟩ ()
    demo_guarded rfl (Or.inl rfl) demo_guarded_first rfl demo_guarded_before rfl
  exact ⟨rfl, Or.inl rfl, demo_guarded_first, rfl, h.2.1, rfl, rfl⟩

end handlebars
